import Mathlib

/-!
Shallow embedding of the seer chess library core, for checking its
natural-language specification. Bitboards (Rust `u64`) are embedded as `Nat`
values kept below `2 ^ 64`; every operation that can overflow takes an explicit
`% 2 ^ 64`. Enums become inductive types, `Option`-returning or panicking Rust
paths become `Option`-valued Lean functions.
-/

set_option maxRecDepth 100000

namespace Seer

/-- Modulus of the 64-bit machine words that back bitboards. -/
def U64 : Nat := 2 ^ 64

/-- A bitboard is a `u64` seen as a set of the 64 squares
(bit `i` set iff square of index `i` is occupied); embedded as `Nat < U64`.
From src/board/bitboard/mod.rs. -/
abbrev Bitboard := Nat

/-- Bitboard.EMPTY from src/board/bitboard/mod.rs. -/
def EMPTY : Bitboard := 0

/-- Bitboard.ALL from src/board/bitboard/mod.rs (`u64::MAX`). -/
def ALL : Bitboard := U64 - 1

/-- Rust `!b` on `u64` (used by the Sub impl), i.e. the 64-bit complement. -/
def bbNot (b : Bitboard) : Bitboard := ALL ^^^ b

/-- The `Sub` impl of Bitboard: `self.0 & !rhs.0` (set difference). -/
def bbSub (a b : Bitboard) : Bitboard := a &&& bbNot b

/-- The `Shl` impl of Bitboard: `u64` left shift, high bits dropped. -/
def bbShl (a : Bitboard) (k : Nat) : Bitboard := (a <<< k) % U64

/-- The `Shr` impl of Bitboard: `u64` logical right shift. -/
def bbShr (a : Bitboard) (k : Nat) : Bitboard := a >>> k

/-- Bitboard.is_empty from src/board/bitboard/mod.rs. -/
def isEmpty (b : Bitboard) : Bool := b == EMPTY

/-- Structural-recursion helper for the population count, with explicit fuel
(64 is enough for any `u64` value). -/
def countAux : Nat → Nat → Nat
  | 0, _ => 0
  | fuel + 1, n => if n = 0 then 0 else n % 2 + countAux fuel (n / 2)

/-- Bitboard.count from src/board/bitboard/mod.rs (`u64::count_ones`). -/
def count (b : Bitboard) : Nat := countAux 64 b

/-- Bitboard.has_more_than_one from src/board/bitboard/mod.rs:
`(b & b.wrapping_sub(1)) != 0` (for `b = 0` the wrap gives `b & MAX = 0`,
matching Nat truncated subtraction). -/
def hasMoreThanOne (b : Bitboard) : Bool := b &&& (b - 1) != 0

/-- Structural-recursion helper for trailing-zero count; on input `0` the
fuel runs the recursion 64 deep, so `trailingZeros 0 = 64` exactly as
`u64::trailing_zeros`. -/
def tzAux : Nat → Nat → Nat
  | 0, _ => 0
  | fuel + 1, n => if n % 2 = 1 then 0 else 1 + tzAux fuel (n / 2)

/-- Rust `u64::trailing_zeros`, for values below `2 ^ 64`. -/
def trailingZeros (b : Bitboard) : Nat := tzAux 64 b


/-- Rust `u64::wrapping_sub`, for operands below `2 ^ 64`. -/
def wrappingSub (a b : Nat) : Nat := (a + (U64 - b)) % U64

/-- One step of `BitboardPowerSetIterator::next` from
src/board/bitboard/superset.rs: `subset.wrapping_sub(board) & board`. -/
def powerSetSucc (board subset : Bitboard) : Bitboard :=
  wrappingSub subset board &&& board

/-- The successive subsets yielded by `BitboardPowerSetIterator`, with
explicit fuel; the iterator starts at the empty subset, yields the current
subset, and stops once the computed successor is empty.  Fuel `2 ^ 64`
covers the longest possible orbit (the full board's power set). -/
def powerSetAux (board : Bitboard) : Nat → Bitboard → List Bitboard
  | 0, _ => []
  | fuel + 1, subset =>
    subset ::
      (if isEmpty (powerSetSucc board subset) then []
       else powerSetAux board fuel (powerSetSucc board subset))

/-- Bitboard.iter_power_set from src/board/bitboard/mod.rs, as the list of
yielded subsets of `BitboardPowerSetIterator::new(board)`. -/
def iterPowerSet (board : Bitboard) : List Bitboard :=
  powerSetAux board U64 EMPTY

/-- A square of the board, index `file * 8 + rank` (A1 = 0, A2 = 1, ...,
H8 = 63), from src/board/square.rs. -/
abbrev Square := Fin 64

/-- Square.rank_index from src/board/square.rs (`index % 8`). -/
def rankIndex (s : Square) : Nat := s.val % 8

/-- Square.file_index from src/board/square.rs (`index / 8`). -/
def fileIndex (s : Square) : Nat := s.val / 8

/-- Square.into_bitboard from src/board/square.rs (`1 << index`). -/
def intoBitboard (s : Square) : Bitboard := 1 <<< s.val

/-- A rank (row) of the board, First = index 0 .. Eighth = index 7,
from src/board/rank.rs. -/
abbrev Rank := Fin 8

/-- A file (column) of the board, A = index 0 .. H = index 7,
from src/board/file.rs. -/
abbrev File := Fin 8

/-- Square.new from src/board/square.rs (`file.index() * 8 + rank.index()`). -/
def squareNew (f : File) (r : Rank) : Square :=
  ⟨f.val * 8 + r.val, by omega⟩

/-- Square.rank from src/board/square.rs. -/
def squareRank (s : Square) : Rank := ⟨rankIndex s, Nat.mod_lt _ (by decide)⟩

/-- Square.file from src/board/square.rs. -/
def squareFile (s : Square) : File := ⟨fileIndex s, by have := s.isLt; unfold fileIndex; omega⟩

/-- Bitboard.RANKS from src/board/bitboard/mod.rs: occupancy of each rank. -/
def RANKS (r : Rank) : Bitboard :=
  match r.val with
  | 0 => 0x0101010101010101
  | 1 => 0x0202020202020202
  | 2 => 0x0404040404040404
  | 3 => 0x0808080808080808
  | 4 => 0x1010101010101010
  | 5 => 0x2020202020202020
  | 6 => 0x4040404040404040
  | _ => 0x8080808080808080

/-- Bitboard.FILES from src/board/bitboard/mod.rs: occupancy of each file. -/
def FILES (f : File) : Bitboard :=
  match f.val with
  | 0 => 0x00000000000000ff
  | 1 => 0x000000000000ff00
  | 2 => 0x0000000000ff0000
  | 3 => 0x00000000ff000000
  | 4 => 0x000000ff00000000
  | 5 => 0x0000ff0000000000
  | 6 => 0x00ff000000000000
  | _ => 0xff00000000000000

/-- Rank.into_bitboard from src/board/rank.rs. -/
def rankIntoBitboard (r : Rank) : Bitboard := RANKS r

/-- File.into_bitboard from src/board/file.rs. -/
def fileIntoBitboard (f : File) : Bitboard := FILES f

/-- The color of a player, from src/board/color.rs. -/
inductive Color where
  | White
  | Black
deriving DecidableEq, Repr, Fintype

/-- Color.index from src/board/color.rs. -/
def colorIndex : Color → Nat
  | .White => 0
  | .Black => 1

/-- The `Not` impl for Color from src/board/color.rs. -/
def colorNot : Color → Color
  | .White => .Black
  | .Black => .White

/-- Color.first_rank from src/board/color.rs. -/
def firstRank : Color → Rank
  | .White => 0
  | .Black => 7

/-- Color.second_rank from src/board/color.rs. -/
def secondRank : Color → Rank
  | .White => 1
  | .Black => 6

/-- Color.third_rank from src/board/color.rs. -/
def thirdRank : Color → Rank
  | .White => 2
  | .Black => 5

/-- Color.fourth_rank from src/board/color.rs. -/
def fourthRank : Color → Rank
  | .White => 3
  | .Black => 4

/-- Color.seventh_rank from src/board/color.rs. -/
def seventhRank : Color → Rank
  | .White => 6
  | .Black => 1

/-- The type of a piece, from src/board/piece.rs; its variant order is the
index order used for every occupancy array and iteration. -/
inductive Piece where
  | King
  | Queen
  | Rook
  | Bishop
  | Knight
  | Pawn
deriving DecidableEq, Repr, Fintype

/-- Piece::ALL from src/board/piece.rs, the order of Piece::iter(). -/
def PIECES : List Piece :=
  [.King, .Queen, .Rook, .Bishop, .Knight, .Pawn]

/-- Castle rights for one player, from src/board/castle_rights.rs; variant
order gives the index (bit 0 = king side, bit 1 = queen side). -/
inductive CastleRights where
  | NoSide
  | KingSide
  | QueenSide
  | BothSides
deriving DecidableEq, Repr, Fintype

/-- CastleRights.index from src/board/castle_rights.rs. -/
def castleIndex : CastleRights → Nat
  | .NoSide => 0
  | .KingSide => 1
  | .QueenSide => 2
  | .BothSides => 3

/-- CastleRights.from_index (total on 0..3) from src/board/castle_rights.rs. -/
def castleFromIndex : Nat → CastleRights
  | 0 => .NoSide
  | 1 => .KingSide
  | 2 => .QueenSide
  | _ => .BothSides

/-- CastleRights.remove from src/board/castle_rights.rs:
`from_index(self.index() & !to_remove.index())`. -/
def castleRemove (c toRemove : CastleRights) : CastleRights :=
  castleFromIndex (castleIndex c &&& (3 - castleIndex toRemove))

/-- CastleRights.without_king_side from src/board/castle_rights.rs. -/
def withoutKingSide (c : CastleRights) : CastleRights := castleRemove c .KingSide

/-- CastleRights.without_queen_side from src/board/castle_rights.rs. -/
def withoutQueenSide (c : CastleRights) : CastleRights := castleRemove c .QueenSide

/-- CastleRights.has_king_side from src/board/castle_rights.rs. -/
def hasKingSide (c : CastleRights) : Bool := castleIndex c &&& 1 != 0

/-- CastleRights.has_queen_side from src/board/castle_rights.rs. -/
def hasQueenSide (c : CastleRights) : Bool := castleIndex c &&& 2 != 0

/-- CastleRights.unmoved_rooks from src/board/castle_rights.rs. -/
def unmovedRooks (c : CastleRights) (color : Color) : Bitboard :=
  let rank := firstRank color
  let kingSideSquare := squareNew 7 rank
  let queenSideSquare := squareNew 0 rank
  match c with
  | .NoSide => EMPTY
  | .KingSide => intoBitboard kingSideSquare
  | .QueenSide => intoBitboard queenSideSquare
  | .BothSides => intoBitboard kingSideSquare ||| intoBitboard queenSideSquare

/-- A direction on the board, from src/board/direction.rs. -/
inductive Direction where
  | North
  | West
  | South
  | East
  | NorthWest
  | SouthWest
  | SouthEast
  | NorthEast
  | NorthNorthWest
  | NorthWestWest
  | SouthWestWest
  | SouthSouthWest
  | SouthSouthEast
  | SouthEastEast
  | NorthEastEast
  | NorthNorthEast
deriving DecidableEq, Repr, Fintype

/-- Direction::ROOK_DIRECTIONS from src/board/direction.rs. -/
def ROOK_DIRECTIONS : List Direction := [.North, .West, .South, .East]

/-- Direction::BISHOP_DIRECTIONS from src/board/direction.rs. -/
def BISHOP_DIRECTIONS : List Direction :=
  [.NorthWest, .SouthWest, .SouthEast, .NorthEast]

/-- Direction::KNIGHT_DIRECTIONS from src/board/direction.rs. -/
def KNIGHT_DIRECTIONS : List Direction :=
  [.NorthNorthWest, .NorthWestWest, .SouthWestWest, .SouthSouthWest,
   .SouthSouthEast, .SouthEastEast, .NorthEastEast, .NorthNorthEast]

/-- Direction.iter_royalty order from src/board/direction.rs
(rook directions then bishop directions). -/
def ROYALTY_DIRECTIONS : List Direction := ROOK_DIRECTIONS ++ BISHOP_DIRECTIONS

/-- Direction.move_board from src/board/direction.rs: shift every piece of a
board one step along the direction, subtracting the seam rank(s) first so the
64-bit shift cannot wrap across a file edge. -/
def moveBoard (d : Direction) (board : Bitboard) : Bitboard :=
  match d with
  | .North => bbShl (bbSub board (rankIntoBitboard 7)) 1
  | .West => bbShr board 8
  | .South => bbShr (bbSub board (rankIntoBitboard 0)) 1
  | .East => bbShl board 8
  | .NorthWest => bbShr (bbSub board (rankIntoBitboard 7)) 7
  | .SouthWest => bbShr (bbSub board (rankIntoBitboard 0)) 9
  | .SouthEast => bbShl (bbSub board (rankIntoBitboard 0)) 7
  | .NorthEast => bbShl (bbSub board (rankIntoBitboard 7)) 9
  | .NorthNorthWest =>
      bbShr (bbSub (bbSub board (rankIntoBitboard 7)) (rankIntoBitboard 6)) 6
  | .NorthWestWest => bbShr (bbSub board (rankIntoBitboard 7)) 15
  | .SouthWestWest => bbShr (bbSub board (rankIntoBitboard 0)) 17
  | .SouthSouthWest =>
      bbShr (bbSub (bbSub board (rankIntoBitboard 0)) (rankIntoBitboard 1)) 10
  | .SouthSouthEast =>
      bbShl (bbSub (bbSub board (rankIntoBitboard 0)) (rankIntoBitboard 1)) 6
  | .SouthEastEast => bbShl (bbSub board (rankIntoBitboard 0)) 15
  | .NorthEastEast => bbShl (bbSub board (rankIntoBitboard 7)) 17
  | .NorthNorthEast =>
      bbShl (bbSub (bbSub board (rankIntoBitboard 7)) (rankIntoBitboard 6)) 10

/-- Direction.move_square from src/board/direction.rs: the singleton shift,
read back as the first square of the shifted board (the bitboard iterator
yields `Square::from_index(trailing_zeros)` when the board is non-empty;
`trailing_zeros` is 64 exactly on the empty board). -/
def moveSquare (d : Direction) (s : Square) : Option Square :=
  let res := moveBoard d (intoBitboard s)
  if h : trailingZeros res < 64 then some ⟨trailingZeros res, h⟩ else none

/-- Color.forward_direction from src/board/color.rs. -/
def forwardDirection : Color → Direction
  | .White => .North
  | .Black => .South

/-- Color.backward_direction from src/board/color.rs (`(!self).forward_direction()`). -/
def backwardDirection (c : Color) : Direction := forwardDirection (colorNot c)

/-- Loop body of Direction.slide_board_with_blockers from
src/board/direction.rs, with explicit fuel for the `while` loop. Each
iteration advances every occupied square one step along the direction, so any
64-bit board empties after at most 7 productive iterations; fuel 64 is
comfortably sufficient and the `isEmpty` early exit makes the exact bound
irrelevant to the computed value. -/
def slideLoop (d : Direction) (blockers : Bitboard) : Nat → Bitboard → Bitboard → Bitboard
  | 0, _, res => res
  | fuel + 1, board, res =>
      if isEmpty board then res
      else
        let board1 := moveBoard d board
        let res1 := res ||| board1
        if !isEmpty (board1 &&& blockers) then res1
        else slideLoop d blockers fuel board1 res1

/-- Direction.slide_board_with_blockers from src/board/direction.rs:
union of the successive shifts of `board` along `d`, stopping right after the
shifted board meets `blockers` (the met blocker square is included) or
becomes empty. -/
def slideBoardWithBlockers (d : Direction) (board blockers : Bitboard) : Bitboard :=
  slideLoop d blockers 64 board EMPTY

/-- Direction.slide_board from src/board/direction.rs. -/
def slideBoard (d : Direction) (board : Bitboard) : Bitboard :=
  slideBoardWithBlockers d board EMPTY

/-- Direction.slide_square from src/board/direction.rs. -/
def slideSquare (d : Direction) (s : Square) : Bitboard :=
  slideBoard d (intoBitboard s)

/-- The naive bishop move generator from src/movegen/naive/bishop.rs: union
over the four bishop rays of the blocker-aware slide of the source square. -/
def naiveBishopMoves (square : Square) (blockers : Bitboard) : Bitboard :=
  (BISHOP_DIRECTIONS.map
      (fun d => slideBoardWithBlockers d (intoBitboard square) blockers)).foldl
    (fun lhs rhs => lhs ||| rhs) EMPTY

/-- The naive rook move generator from src/movegen/rook.rs: union over the
four rook rays of the blocker-aware slide of the source square. -/
def naiveRookMoves (square : Square) (blockers : Bitboard) : Bitboard :=
  (ROOK_DIRECTIONS.map
      (fun d => slideBoardWithBlockers d (intoBitboard square) blockers)).foldl
    (fun lhs rhs => lhs ||| rhs) EMPTY

/-- The naive knight move generator from src/movegen/naive/knight.rs. -/
def naiveKnightMoves (square : Square) : Bitboard :=
  (KNIGHT_DIRECTIONS.map (fun d => moveBoard d (intoBitboard square))).foldl
    (fun lhs rhs => lhs ||| rhs) EMPTY

/-- The naive king move generator from src/movegen/king.rs. -/
def naiveKingMoves (square : Square) : Bitboard :=
  (ROYALTY_DIRECTIONS.map (fun d => moveBoard d (intoBitboard square))).foldl
    (fun lhs rhs => lhs ||| rhs) EMPTY

/-- The naive pawn forward-move generator from src/movegen/naive/pawn.rs:
the one-step push, plus the two-step push from the color's second rank, all
of it only when the one-step square is unblocked. -/
def naivePawnMoves (color : Color) (square : Square) (blockers : Bitboard) : Bitboard :=
  if squareRank square = 0 ∨ squareRank square = 7 then EMPTY
  else
    let dir := forwardDirection color
    let firstPush := moveBoard dir (intoBitboard square)
    let secondPush :=
      if squareRank square = secondRank color then
        intoBitboard (squareNew (squareFile square) (fourthRank color))
      else EMPTY
    if isEmpty (firstPush &&& blockers) then firstPush ||| secondPush
    else EMPTY

/-- The naive pawn capture generator from src/movegen/naive/pawn.rs. -/
def naivePawnCaptures (color : Color) (square : Square) : Bitboard :=
  if squareRank square = 0 ∨ squareRank square = 7 then EMPTY
  else
    let dir := forwardDirection color
    let advanced := moveBoard dir (intoBitboard square)
    let attackWest := moveBoard .West advanced
    let attackEast := moveBoard .East advanced
    attackWest ||| attackEast

/-- The pawn quiet-move oracle from src/movegen/moves.rs: empty when a
blocker stands right in front of the pawn (tested by shifting the blockers
one step backward), else the cached `naive::pawn_moves(color, square, EMPTY)`
table entry. -/
def pawnQuietMoves (color : Color) (square : Square) (blockers : Bitboard) : Bitboard :=
  if !isEmpty (moveBoard (backwardDirection color) blockers &&& intoBitboard square) then
    EMPTY
  else
    naivePawnMoves color square EMPTY

/-- The pawn attack oracle from src/movegen/moves.rs: the cached
`naive::pawn_captures` table entry, independent of blockers. -/
def pawnAttacks (color : Color) (square : Square) : Bitboard :=
  naivePawnCaptures color square

/-- The pawn move oracle from src/movegen/moves.rs. -/
def pawnMoves (color : Color) (square : Square) (blockers : Bitboard) : Bitboard :=
  pawnQuietMoves color square blockers ||| pawnAttacks color square

/-- The knight move oracle from src/movegen/moves.rs: cached naive table. -/
def knightMoves (square : Square) : Bitboard :=
  naiveKnightMoves square

/-- The king move oracle from src/movegen/moves.rs: cached naive table. -/
def kingMoves (square : Square) : Bitboard :=
  naiveKingMoves square

/-- Error for the Bitboard → Square conversion, from src/board/bitboard/error.rs. -/
inductive IntoSquareError where
  | EmptyBoard
  | TooManySquares
deriving DecidableEq, Repr

/-- Witness used by tryIntoSquare that the index of the unique set bit of a
singleton board is a legal square index: a positive population count within
the inspected 64 bits forces a set bit there, hence fewer than 64 trailing
zeros. -/
def tzAux_lt_of_countAux_pos : ∀ (fuel n : Nat), 1 ≤ countAux fuel n → tzAux fuel n < fuel := by
  intro fuel
  induction fuel with
  | zero => intro n h; simp [countAux] at h
  | succ fuel ih =>
      intro n h
      unfold countAux at h
      unfold tzAux
      by_cases hz : n = 0
      · simp [hz] at h
      · simp only [hz, if_false] at h
        by_cases hp : n % 2 = 1
        · simp [hp]
        · simp only [hp, if_false]
          have h2 : 1 ≤ countAux fuel (n / 2) := by omega
          have := ih (n / 2) h2
          omega

/-- The `TryInto<Square>` impl for Bitboard from src/board/bitboard/mod.rs:
a singleton board converts to its square (`trailing_zeros` of the board), an
empty board errors with EmptyBoard, anything larger with TooManySquares. -/
def tryIntoSquare (b : Bitboard) : Except IntoSquareError Square :=
  match h : count b with
  | 1 => .ok ⟨trailingZeros b, tzAux_lt_of_countAux_pos 64 b (by unfold count at h; omega)⟩
  | 0 => .error .EmptyBoard
  | _ => .error .TooManySquares

/-- A chess move as consumed by the position code: the accessors `start()`,
`destination()` and `promotion()` of board::Move are the only ones used by
ChessBoard::play_move_inplace / unplay_move (src/board/chess_board/mod.rs). -/
structure Move where
  start : Square
  destination : Square
  promotion : Option Piece
deriving DecidableEq, Repr

/-- The position state, ChessBoard from src/board/chess_board/mod.rs.
The `u32` clocks are embedded as `Nat` (none of the verified paths reach a
`u32` wrap: `unplay` only runs after a `play`, which keeps both positive). -/
structure ChessBoard where
  pieceOccupancy : Piece → Bitboard
  colorOccupancy : Color → Bitboard
  combinedOccupancy : Bitboard
  castleRights : Color → CastleRights
  enPassant : Option Square
  halfMoveClock : Nat
  totalPlies : Nat
  side : Color
deriving DecidableEq

/-- The non-reversible per-move state, NonReversibleState from
src/board/chess_board/mod.rs. -/
structure NonReversibleState where
  castleRights : Color → CastleRights
  enPassant : Option Square
  halfMoveClock : Nat
  capturedPiece : Option Piece
deriving DecidableEq

/-- ChessBoard::occupancy: pieces of one kind and one color. -/
def occupancy (b : ChessBoard) (piece : Piece) (color : Color) : Bitboard :=
  b.pieceOccupancy piece &&& b.colorOccupancy color

/-- ChessBoard::xor from src/board/chess_board/mod.rs: toggle a square on
the piece, color and combined occupancy boards. -/
def boardXor (b : ChessBoard) (color : Color) (piece : Piece) (square : Square) : ChessBoard :=
  { b with
    pieceOccupancy := fun p =>
      if p = piece then b.pieceOccupancy p ^^^ intoBitboard square else b.pieceOccupancy p
    colorOccupancy := fun c =>
      if c = color then b.colorOccupancy c ^^^ intoBitboard square else b.colorOccupancy c
    combinedOccupancy := b.combinedOccupancy ^^^ intoBitboard square }

/-- ChessBoard::update_castling from src/board/chess_board/mod.rs: drop the
castling rights lost by moving or losing a rook or king on the given file. -/
def updateCastling (b : ChessBoard) (color : Color) (piece : Piece) (file : File) : ChessBoard :=
  let original := b.castleRights color
  let newRights : Option CastleRights :=
    match piece, file.val with
    | Piece.Rook, 0 => some (withoutQueenSide original)
    | Piece.Rook, 7 => some (withoutKingSide original)
    | Piece.King, _ => some CastleRights.NoSide
    | _, _ => none
  match newRights with
  | none => b
  | some nr =>
      if nr ≠ original then
        { b with castleRights := fun c => if c = color then nr else b.castleRights c }
      else b

/-- ChessBoard::play_move_inplace from src/board/chess_board/mod.rs, as a
pure function returning the updated board next to the saved non-reversible
state; `none` embeds the panic of the `unwrap` when no piece stands on the
start square. The sequence of `let` steps mirrors the source's sequence of
in-place mutations (the side to move only flips in the last step, so every
intermediate `current_player()` call reads `b.side`). -/
def playMoveInplace (b : ChessBoard) (m : Move) : Option (ChessBoard × NonReversibleState) :=
  let opponent := colorNot b.side
  match PIECES.find? (fun p => !isEmpty (b.pieceOccupancy p &&& intoBitboard m.start)) with
  | none => none
  | some movePiece =>
      let capturedPiece := (PIECES.drop 1).find?
        (fun p => !isEmpty (occupancy b p opponent &&& intoBitboard m.destination))
      let isDoubleStep :=
        movePiece == Piece.Pawn
          && squareRank m.start == secondRank b.side
          && squareRank m.destination == fourthRank b.side
      let state : NonReversibleState :=
        ⟨b.castleRights, b.enPassant, b.halfMoveClock, capturedPiece⟩
      let b1 :=
        if capturedPiece.isSome || movePiece == Piece.Pawn then
          { b with halfMoveClock := 0 }
        else
          { b with halfMoveClock := b.halfMoveClock + 1 }
      let targetSquare := squareNew (squareFile m.destination) (thirdRank b.side)
      let b2 :=
        if isDoubleStep then { b1 with enPassant := some targetSquare }
        else { b1 with enPassant := none }
      let b3 := updateCastling b2 b.side movePiece (squareFile m.start)
      let b4 :=
        match capturedPiece with
        | some piece =>
            updateCastling (boardXor b3 opponent piece m.destination)
              opponent piece (squareFile m.destination)
        | none => b3
      let destPiece := m.promotion.getD movePiece
      let b5 := boardXor b4 b.side movePiece m.start
      let b6 := boardXor b5 b.side destPiece m.destination
      some ({ b6 with totalPlies := b6.totalPlies + 1, side := colorNot b.side }, state)

/-- ChessBoard::play_move from src/board/chess_board/mod.rs: the pure copy
of play_move_inplace. -/
def playMove (b : ChessBoard) (m : Move) : Option ChessBoard :=
  (playMoveInplace b m).map Prod.fst

/-- ChessBoard::unplay_move from src/board/chess_board/mod.rs: restore the
non-reversible state, infer the (possibly promoted) piece standing on the
destination, move it back (as a pawn if the move carried a promotion) and
re-place the captured piece; `none` embeds the panic of the `unwrap` when no
piece stands on the destination square. -/
def unplayMove (b : ChessBoard) (m : Move) (previous : NonReversibleState) : Option ChessBoard :=
  let b0 := { b with
    castleRights := previous.castleRights
    enPassant := previous.enPassant
    halfMoveClock := previous.halfMoveClock }
  match PIECES.find? (fun p => !isEmpty (b0.pieceOccupancy p &&& intoBitboard m.destination)) with
  | none => none
  | some movePiece =>
      let b1 :=
        match previous.capturedPiece with
        | some piece => boardXor b0 b.side piece m.destination
        | none => b0
      let startPiece :=
        match m.promotion with
        | some _ => Piece.Pawn
        | none => movePiece
      let b2 := boardXor b1 (colorNot b.side) movePiece m.destination
      let b3 := boardXor b2 (colorNot b.side) startPiece m.start
      some { b3 with totalPlies := b3.totalPlies - 1, side := colorNot b.side }

/-- The starting position, the Default impl of ChessBoard from
src/board/chess_board/mod.rs. -/
def defaultChessBoard : ChessBoard where
  pieceOccupancy := fun p =>
    match p with
    | .King => intoBitboard (squareNew 4 0) ||| intoBitboard (squareNew 4 7)
    | .Queen => intoBitboard (squareNew 3 0) ||| intoBitboard (squareNew 3 7)
    | .Rook =>
        intoBitboard (squareNew 0 0) ||| intoBitboard (squareNew 0 7)
          ||| intoBitboard (squareNew 7 0) ||| intoBitboard (squareNew 7 7)
    | .Bishop =>
        intoBitboard (squareNew 2 0) ||| intoBitboard (squareNew 2 7)
          ||| intoBitboard (squareNew 5 0) ||| intoBitboard (squareNew 5 7)
    | .Knight =>
        intoBitboard (squareNew 1 0) ||| intoBitboard (squareNew 1 7)
          ||| intoBitboard (squareNew 6 0) ||| intoBitboard (squareNew 6 7)
    | .Pawn => rankIntoBitboard 1 ||| rankIntoBitboard 6
  colorOccupancy := fun c =>
    match c with
    | .White => rankIntoBitboard 0 ||| rankIntoBitboard 1
    | .Black => rankIntoBitboard 6 ||| rankIntoBitboard 7
  combinedOccupancy :=
    rankIntoBitboard 0 ||| rankIntoBitboard 1 ||| rankIntoBitboard 6 ||| rankIntoBitboard 7
  castleRights := fun _ => .BothSides
  enPassant := none
  halfMoveClock := 0
  totalPlies := 0
  side := .White

/-- Intended geometric displacement (file delta, rank delta) of each
direction under the layout `index = file * 8 + rank`; the reference against
which the shift table is checked for wrap-around. -/
def directionDelta : Direction → Int × Int
  | .North => (0, 1)
  | .West => (-1, 0)
  | .South => (0, -1)
  | .East => (1, 0)
  | .NorthWest => (-1, 1)
  | .SouthWest => (-1, -1)
  | .SouthEast => (1, -1)
  | .NorthEast => (1, 1)
  | .NorthNorthWest => (-1, 2)
  | .NorthWestWest => (-2, 1)
  | .SouthWestWest => (-2, -1)
  | .SouthSouthWest => (-1, -2)
  | .SouthSouthEast => (1, -2)
  | .SouthEastEast => (2, -1)
  | .NorthEastEast => (2, 1)
  | .NorthNorthEast => (1, 2)

/-- Geometric reference for a single-square shift: the square displaced by
the direction's file and rank deltas when both stay within the board, and
nothing otherwise (never a wrapped-around square). -/
def shiftTarget (d : Direction) (s : Square) : Option Square :=
  let del := directionDelta d
  let f : Int := (fileIndex s : Int) + del.1
  let r : Int := (rankIndex s : Int) + del.2
  if h : 0 ≤ f ∧ f < 8 ∧ 0 ≤ r ∧ r < 8 then
    some ⟨(f * 8 + r).toNat, by omega⟩
  else none

/-- Rust `Color::iter()` order, White then Black. -/
def COLORS : List Color := [Color.White, Color.Black]

/-- Modelled from the spec: the Zobrist key tables of spec section 4.I.  The
code of src/board/zobrist.rs only defines the key lookups
(`moved_piece`, `castling_rights`, `en_passant`, `side_to_move`) over
constant tables and has no caller in the library, so the hash computations
are modelled from the spec, abstracted over the concrete key values. -/
structure ZobristKeys where
  blackToMove : Nat
  pieceKey : Color → Piece → Square → Nat
  castlingKey : CastleRights → CastleRights → Nat
  enPassantKey : File → Nat

/-- Modelled from the spec: XOR of `k i` over every set bit `i` of a word. -/
def xorBits (k : Nat → Nat) (x : Nat) : Nat :=
  (List.range 64).foldl (fun h i => h ^^^ (if x.testBit i then k i else 0)) 0

/-- The per-square piece key as a function of the raw bit index. -/
def squareKey (K : ZobristKeys) (c : Color) (p : Piece) (i : Nat) : Nat :=
  if h : i < 64 then K.pieceKey c p ⟨i, h⟩ else 0

/-- Modelled from the spec: the piece-placement keys of one (color, piece)
pair present in a position, XORed together. -/
def colorPieceHash (K : ZobristKeys) (b : ChessBoard) (c : Color) (p : Piece) : Nat :=
  xorBits (squareKey K c p) (occupancy b p c)

/-- Modelled from the spec: all piece-placement keys of a position. -/
def piecesHash (K : ZobristKeys) (b : ChessBoard) : Nat :=
  COLORS.foldl
    (fun h c => h ^^^ PIECES.foldl (fun h2 p => h2 ^^^ colorPieceHash K b c p) 0) 0

/-- Modelled from the spec: the en-passant component, keyed by file only. -/
def epHash (K : ZobristKeys) (ep : Option Square) : Nat :=
  match ep with
  | some sq => K.enPassantKey (squareFile sq)
  | none => 0

/-- Modelled from the spec: the from-scratch Zobrist hash of a position —
XOR of the side-to-move key (when Black is to move), every
per-(color, piece, square) key of the piece placement, the castle-rights
pair key, and the en-passant file key. -/
def hashFromScratch (K : ZobristKeys) (b : ChessBoard) : Nat :=
  (if b.side = Color.Black then K.blackToMove else 0)
    ^^^ piecesHash K b
    ^^^ K.castlingKey (b.castleRights Color.White) (b.castleRights Color.Black)
    ^^^ epHash K b.enPassant

/-- Modelled from the spec: the incremental-update delta for one `play`
transition — each discrete change (moved piece off its start square, the
destination piece onto the destination square, any captured piece off the
destination, the castling pair re-keyed old-XOR-new, the en-passant key
out and in, and the side-to-move flip) toggles its key. -/
def playZobristDelta (K : ZobristKeys) (b b2 : ChessBoard) (m : Move)
    (movedPiece : Piece) (captured : Option Piece) : Nat :=
  K.pieceKey b.side movedPiece m.start
    ^^^ K.pieceKey b.side (m.promotion.getD movedPiece) m.destination
    ^^^ (match captured with
        | some cp => K.pieceKey (colorNot b.side) cp m.destination
        | none => 0)
    ^^^ K.castlingKey (b.castleRights Color.White) (b.castleRights Color.Black)
    ^^^ K.castlingKey (b2.castleRights Color.White) (b2.castleRights Color.Black)
    ^^^ epHash K b.enPassant
    ^^^ epHash K b2.enPassant
    ^^^ K.blackToMove

/-- The set of squares whose occupancy bit a `play` transition toggles for a
given (piece, color) pair: the start square for the mover, the destination
square for the piece standing there afterwards, and the destination square
for a captured piece of the opposite color. -/
def playToggles (side : Color) (m : Move) (mp dp : Piece)
    (captured : Option Piece) (p : Piece) (c : Color) : Nat :=
  (if c = side ∧ p = mp then intoBitboard m.start else 0)
    ^^^ (if c = side ∧ p = dp then intoBitboard m.destination else 0)
    ^^^ (match captured with
        | some cp => if c = colorNot side ∧ p = cp then intoBitboard m.destination else 0
        | none => 0)


/-- Magic seed values for bishop move generation, from
src/movegen/wizardry/mod.rs (`BISHOP_SEED`). -/
def BISHOP_SEED : List Nat :=
  [
   4634226011293351952, 6918109887683821586, 76562328660738184, 7242919606867744800,
   13871652069997347969, 1171657252671901696, 147001475087730752, 1752045392763101248,
   288406435526639744, 4612213818402029888, 9808848818951710728, 9223394181731320840,
   54047645651435648, 9224780030482579712, 9049059098626048, 1442330840700035221,
   1126037887157508, 1153488887004529665, 290485130928332936, 9226749771011592258,
   148636405693678112, 2260596997758984, 73470481646424336, 2341907012146823680,
   2314955761652335121, 2265544246165632, 13598764778463296, 563087425962496,
   563087425962048, 2163991853573081088, 567353402270020, 6488844433713538048,
   288810987011448834, 11830884701569344, 2747549955031826688, 35734665298432,
   18025943920672800, 292892945404789012, 1153520472160470528, 2260949167801860,
   155446765112299521, 379008324189818944, 4616480181217005576, 576461027453960704,
   2450556349601564416, 1160556519943569536, 4612900059821375552, 5477089643453251617,
   9223532084785594632, 2810391870219355200, 36594222015453185, 4612011546951352320,
   2392883590201344, 1152956706186200064, 9009415592510464, 81077999302148128,
   576746627483043968, 301267327789056, 39586720976896, 720878306081243648,
   9223512777841312257, 5764609859566698625, 8088544233436348496, 4612856276794474560]

/-- Magic seed values for rook move generation, from
src/movegen/wizardry/mod.rs (`ROOK_SEED`). -/
def ROOK_SEED : List Nat :=
  [
   180144122814791812, 10448386594766422036, 9403533616331358856, 108095189301858304,
   72076290316044288, 36066182562054145, 4647717564258980096, 13979173385364603396,
   4620833992751489152, 297800804633419904, 578009002156298240, 2450099003505838082,
   1175721046778052864, 20406952999780864, 1175861788231598592, 36169538802827392,
   288371663414771712, 423313050501155, 604731668136450, 580261214513399808,
   297661437206136832, 1750211954976489600, 9020393411186696, 9259543770406356001,
   44532368556032, 10376381507760693256, 52778707714176, 4612829512676149248,
   1882513444629184528, 2369460754144428160, 9223380850137104901, 2666413562481640036,
   141012643087392, 16735517094631719424, 17594358702087, 2344264412262574084,
   422813768878080, 1126450811896320, 54466576291772936, 42784758060548372,
   292874851780165648, 18015364885839937, 282644818493504, 1184447393488764944,
   4649966632473477184, 563499910594566, 17632049496086, 18502729728001,
   140742121013504, 9711024139665536, 246293205270784, 290772515771392256,
   9230131836490350720, 73326432604127360, 453174886517643776, 2396271245728563712,
   324259242966026501, 288953994406543363, 1153557061259362338, 40533496293515441,
   1407392197644307, 1729945211427624002, 587808330812164100, 9511606812128903298]

/-- The `Magic` record of src/movegen/wizardry/mod.rs. -/
structure Magic where
  magic : Nat
  offset : Nat
  mask : Bitboard
  shift : Nat
deriving DecidableEq, Repr

/-- Magic.get_index: `((blockers & mask).wrapping_mul(magic) >> shift) + offset`. -/
def magicGetIndex (mg : Magic) (blockers : Bitboard) : Nat :=
  (((blockers &&& mg.mask) * mg.magic) % U64) >>> mg.shift + mg.offset

/-- PreRolledRng.gen from src/movegen/moves.rs: returns `numbers[current_index / 3]`
and advances the index; reading past the seed array is the Rust panic path,
modelled as `none`. -/
def rngGen (values : List Nat) (idx : Nat) : Option (Nat × Nat) :=
  match values.get? (idx / 3) with
  | some v => some (v, idx + 1)
  | none => none

/-- magic_candidate from src/movegen/wizardry/generation.rs:
`rng.gen() & rng.gen() & rng.gen()`. -/
def magicCandidate (values : List Nat) (idx : Nat) : Option (Nat × Nat) :=
  match rngGen values idx with
  | none => none
  | some (v1, i1) =>
    match rngGen values i1 with
    | none => none
    | some (v2, i2) =>
      match rngGen values i2 with
      | none => none
      | some (v3, i3) => some (v1 &&& v2 &&& v3, i3)

/-- The table-filling loop of generate_magics: write each occupancy's move set
at its magic index, failing on a non-constructive collision. -/
def tryFillMoves (mg : Magic) :
    List (Bitboard × Bitboard) → List Bitboard → Option (List Bitboard)
  | [], acc => some acc
  | (occ, mv) :: rest, acc =>
    let cur := acc.getD (magicGetIndex mg occ) EMPTY
    if !isEmpty cur && cur != mv then none
    else tryFillMoves mg rest (acc.set (magicGetIndex mg occ) mv)

/-- The candidate-search loop of generate_magics for one square; each attempt
draws a fresh candidate from the rng.  Fuel 64 exceeds the number of
candidates the 64-entry pre-rolled rng can ever produce. -/
def candidateSearch (values : List Nat) (mask : Bitboard)
    (otm : List (Bitboard × Bitboard)) (boardsLen : Nat) :
    Nat → Nat → Option (Magic × List Bitboard × Nat)
  | 0, _ => none
  | fuel + 1, idx =>
    match magicCandidate values idx with
    | none => none
    | some (cand, idx2) =>
      let mg : Magic := ⟨cand, 0, mask, 64 - count mask⟩
      match tryFillMoves mg otm (List.replicate otm.length EMPTY) with
      | some filled => some (⟨cand, boardsLen, mask, 64 - count mask⟩, filled, idx2)
      | none => candidateSearch values mask otm boardsLen fuel idx2

/-- generate_magics from src/movegen/wizardry/generation.rs, iterating over
the squares in order and concatenating each square's move table. -/
def generateMagicsGo (values : List Nat) (maskFn : Square → Bitboard)
    (movesFn : Square → Bitboard → Bitboard) :
    List Square → Nat → List Magic → List Bitboard →
      Option (List Magic × List Bitboard)
  | [], _, magics, boards => some (magics, boards)
  | sq :: rest, idx, magics, boards =>
    let mask := maskFn sq
    let otm := (iterPowerSet mask).map (fun occ => (occ, movesFn sq occ))
    match candidateSearch values mask otm boards.length 64 idx with
    | none => none
    | some (mg, filled, idx2) =>
      generateMagicsGo values maskFn movesFn rest idx2 (magics ++ [mg]) (boards ++ filled)

/-- `Square::iter()` order. -/
def SQUARES : List Square := List.finRange 64

def generateMagics (values : List Nat) (maskFn : Square → Bitboard)
    (movesFn : Square → Bitboard → Bitboard) :
    Option (List Magic × List Bitboard) :=
  generateMagicsGo values maskFn movesFn SQUARES 0 [] []

/-- generate_bishop_mask from src/movegen/wizardry/mask.rs. -/
def generateBishopMask (square : Square) : Bitboard :=
  bbSub (naiveBishopMoves square EMPTY)
    (fileIntoBitboard ⟨0, by omega⟩ ||| fileIntoBitboard ⟨7, by omega⟩
      ||| rankIntoBitboard ⟨0, by omega⟩ ||| rankIntoBitboard ⟨7, by omega⟩)

/-- generate_rook_mask from src/movegen/wizardry/mask.rs. -/
def generateRookMask (square : Square) : Bitboard :=
  bbSub (naiveRookMoves square EMPTY)
    ((if squareFile square ≠ ⟨0, by omega⟩ then fileIntoBitboard ⟨0, by omega⟩ else EMPTY)
      ||| (if squareFile square ≠ ⟨7, by omega⟩ then fileIntoBitboard ⟨7, by omega⟩ else EMPTY)
      ||| (if squareRank square ≠ ⟨0, by omega⟩ then rankIntoBitboard ⟨0, by omega⟩ else EMPTY)
      ||| (if squareRank square ≠ ⟨7, by omega⟩ then rankIntoBitboard ⟨7, by omega⟩ else EMPTY))

/-- The bishop magic table, built as in src/movegen/moves.rs by running the
generator over the pre-rolled bishop seeds. -/
def BISHOP_MAGICS : Option (List Magic × List Bitboard) :=
  generateMagics BISHOP_SEED generateBishopMask naiveBishopMoves

/-- The rook magic table, built over the pre-rolled rook seeds. -/
def ROOK_MAGICS : Option (List Magic × List Bitboard) :=
  generateMagics ROOK_SEED generateRookMask naiveRookMoves

/-- MagicMoves.query from src/movegen/wizardry/mod.rs (the source uses
unchecked indexing; out-of-range reads, impossible for generated tables,
default to the empty board). -/
def magicQuery (t : List Magic × List Bitboard) (square : Square)
    (blockers : Bitboard) : Bitboard :=
  (t.2).getD (magicGetIndex ((t.1).getD square.val ⟨0, 0, 0, 0⟩) blockers) EMPTY

/-- movegen::bishop_moves: query the lazily built magic table (the
initialization failure path cannot return a board in Rust; it is modelled
as the empty board). -/
def bishopMoves (square : Square) (blockers : Bitboard) : Bitboard :=
  match BISHOP_MAGICS with
  | some t => magicQuery t square blockers
  | none => EMPTY

/-- movegen::rook_moves. -/
def rookMoves (square : Square) (blockers : Bitboard) : Bitboard :=
  match ROOK_MAGICS with
  | some t => magicQuery t square blockers
  | none => EMPTY

/-- movegen::queen_moves. -/
def queenMoves (square : Square) (blockers : Bitboard) : Bitboard :=
  bishopMoves square blockers ||| rookMoves square blockers

/-- Rust `Bitboard::try_into().unwrap()` on a singleton board (the panic path
is unreachable along the code paths that use it). -/
def unwrapSquare (b : Bitboard) : Square :=
  if h : trailingZeros b < 64 then ⟨trailingZeros b, h⟩ else ⟨0, by omega⟩

/-- ValidationError from src/board/chess_board/error.rs. -/
inductive ValidationError where
  | TooManyPieces
  | MissingKing
  | InvalidPawnPosition
  | InvalidCastlingRights
  | InvalidEnPassant
  | NeighbouringKings
  | OpponentInCheck
  | OverlappingPieces
  | OverlappingColors
  | ErroneousCombinedOccupancy
  | HalfMoveClockTooHigh
  | IncoherentPlieCount
deriving DecidableEq, Repr

instance : DecidableEq (Except ValidationError Unit) := fun a b =>
  match a, b with
  | .ok _, .ok _ => isTrue rfl
  | .error e1, .error e2 =>
    if h : e1 = e2 then isTrue (by rw [h])
    else isFalse (fun hc => h (by injection hc))
  | .ok _, .error _ => isFalse (fun hc => Except.noConfusion hc)
  | .error _, .ok _ => isFalse (fun hc => Except.noConfusion hc)

/-- ChessBoard::compute_checkers from src/board/chess_board/mod.rs. -/
def computeCheckers (b : ChessBoard) (color : Color) : Bitboard :=
  let king := unwrapSquare (occupancy b Piece.King color)
  let opponent := colorNot color
  let bishops :=
    (occupancy b Piece.Queen opponent ||| occupancy b Piece.Bishop opponent)
      &&& bishopMoves king b.combinedOccupancy
  let rooks :=
    (occupancy b Piece.Queen opponent ||| occupancy b Piece.Rook opponent)
      &&& rookMoves king b.combinedOccupancy
  let knights := occupancy b Piece.Knight opponent &&& knightMoves king
  let pawns := occupancy b Piece.Pawn opponent &&& pawnAttacks color king
  bishops ||| rooks ||| knights ||| pawns

/-- The per-color piece-count block of ChessBoard::validate (count limits,
exactly one king, at most 16 pieces in total). -/
def colorCountChecks (b : ChessBoard) (color : Color) : Option ValidationError :=
  if PIECES.any (fun piece =>
      !(match piece with
        | Piece.King => decide (count (occupancy b piece color) ≤ 1)
        | Piece.Pawn => decide (count (occupancy b piece color) ≤ 8)
        | Piece.Queen => decide (count (occupancy b piece color) ≤ 9)
        | _ => decide (count (occupancy b piece color) ≤ 10)))
  then some ValidationError.TooManyPieces
  else if count (occupancy b Piece.King color) ≠ 1 then some ValidationError.MissingKing
  else if count (b.colorOccupancy color) > 16 then some ValidationError.TooManyPieces
  else none

/-- The per-color castling block of ChessBoard::validate. -/
def castleChecks (b : ChessBoard) (color : Color) : Option ValidationError :=
  if b.castleRights color = CastleRights.NoSide then none
  else if unmovedRooks (b.castleRights color) color &&& occupancy b Piece.Rook color
      ≠ unmovedRooks (b.castleRights color) color
    then some ValidationError.InvalidCastlingRights
  else if occupancy b Piece.King color
      ≠ intoBitboard (squareNew ⟨4, by omega⟩ (firstRank color))
    then some ValidationError.InvalidCastlingRights
  else none

/-- The en-passant block of ChessBoard::validate. -/
def enPassantChecks (b : ChessBoard) : Option ValidationError :=
  match b.enPassant with
  | none => none
  | some square =>
    if !isEmpty (b.combinedOccupancy &&& intoBitboard square)
      then some ValidationError.InvalidEnPassant
    else if isEmpty (intoBitboard square
        &&& rankIntoBitboard (thirdRank (colorNot b.side)))
      then some ValidationError.InvalidEnPassant
    else if isEmpty (occupancy b Piece.Pawn (colorNot b.side)
        &&& moveBoard (backwardDirection b.side) (intoBitboard square))
      then some ValidationError.InvalidEnPassant
    else none

/-- ChessBoard::validate from src/board/chess_board/mod.rs, with its checks in
the order the source performs them: ply-count parity, half-move clock, piece
overlaps, color overlaps, combined-occupancy coherence (against the piece
union, then the color union), per-color counts, pawn ranks, castling rights,
en passant, touching kings, opponent in check. -/
def validate (b : ChessBoard) : Except ValidationError Unit :=
  if b.totalPlies % 2 ≠ colorIndex b.side
    then Except.error ValidationError.IncoherentPlieCount
  else if b.halfMoveClock > b.totalPlies
    then Except.error ValidationError.HalfMoveClockTooHigh
  else if PIECES.any (fun piece => PIECES.any (fun other =>
      decide (piece ≠ other)
        && !isEmpty (b.pieceOccupancy piece &&& b.pieceOccupancy other)))
    then Except.error ValidationError.OverlappingPieces
  else if !isEmpty (b.colorOccupancy Color.White &&& b.colorOccupancy Color.Black)
    then Except.error ValidationError.OverlappingColors
  else if PIECES.foldl (fun board p => board ||| b.pieceOccupancy p) EMPTY
      ≠ b.combinedOccupancy
    then Except.error ValidationError.ErroneousCombinedOccupancy
  else if PIECES.foldl (fun board p => board ||| b.pieceOccupancy p) EMPTY
      ≠ (b.colorOccupancy Color.White ||| b.colorOccupancy Color.Black)
    then Except.error ValidationError.ErroneousCombinedOccupancy
  else match colorCountChecks b Color.White with
  | some e => Except.error e
  | none =>
    match colorCountChecks b Color.Black with
    | some e => Except.error e
    | none =>
      if !isEmpty (b.pieceOccupancy Piece.Pawn
          &&& (rankIntoBitboard ⟨0, by omega⟩ ||| rankIntoBitboard ⟨7, by omega⟩))
        then Except.error ValidationError.InvalidPawnPosition
      else match castleChecks b Color.White with
      | some e => Except.error e
      | none =>
        match castleChecks b Color.Black with
        | some e => Except.error e
        | none =>
          match enPassantChecks b with
          | some e => Except.error e
          | none =>
            if !isEmpty (kingMoves (unwrapSquare (occupancy b Piece.King Color.White))
                &&& occupancy b Piece.King Color.Black)
              then Except.error ValidationError.NeighbouringKings
            else if !isEmpty (computeCheckers b (colorNot b.side))
              then Except.error ValidationError.OpponentInCheck
            else Except.ok ()

/-- The starting position with the white queen duplicated onto the king's
square E1 and the ply counter desynchronised from the side to move: it
violates both the piece-overlap invariant and the ply-count parity
invariant. -/
def c3BadBoard : ChessBoard :=
  { defaultChessBoard with
    totalPlies := 1
    pieceOccupancy := fun p =>
      if p = Piece.Queen
        then defaultChessBoard.pieceOccupancy Piece.Queen
          ||| intoBitboard ⟨32, by decide⟩
        else defaultChessBoard.pieceOccupancy p }

end Seer

namespace Seer

/-- Singleton boards are powers of two. -/
theorem intoBitboard_two_pow (s : Square) : intoBitboard s = 2 ^ s.val := by
  simp [intoBitboard, Nat.shiftLeft_eq]

/-- Intersection against a singleton board tests exactly one bit. -/
theorem land_intoBitboard_ne (a : Nat) (s : Square) :
    a &&& intoBitboard s ≠ 0 ↔ a.testBit s.val = true := by
  rw [intoBitboard_two_pow, Nat.and_two_pow]
  cases h : a.testBit s.val <;> simp [h]

/-- Characterization of a singleton shift through move_square: the shifted
singleton is the singleton of the moved square, or empty when the move falls
off the board. -/
theorem moveBoard_singleton (d : Direction) (s : Square) :
    moveBoard d (intoBitboard s) =
      (match moveSquare d s with
       | some t => intoBitboard t
       | none => EMPTY) := by
  revert s; cases d <;> decide

/-- Arithmetic content of a northward single-square move. -/
theorem moveSquare_north_facts :
    ∀ s t : Square, moveSquare .North s = some t → t.val = s.val + 1 ∧ s.val % 8 ≤ 6 := by
  decide

/-- Arithmetic content of a southward single-square move. -/
theorem moveSquare_south_facts :
    ∀ s t : Square, moveSquare .South s = some t → s.val = t.val + 1 ∧ 1 ≤ s.val % 8 := by
  decide

/-- Bits of the complement of the first rank, the seam mask of the South
shift. -/
theorem notRankFirst_bits :
    ∀ j : Fin 64, (ALL ^^^ RANKS 0).testBit j.val = decide (j.val % 8 ≠ 0) := by
  decide

/-- Bits of the complement of the eighth rank, the seam mask of the North
shift. -/
theorem notRankEighth_bits :
    ∀ j : Fin 64, (ALL ^^^ RANKS 7).testBit j.val = decide (j.val % 8 ≠ 7) := by
  decide

/-- Membership in a southward-shifted board reads the bit one step north. -/
theorem testBit_moveBoard_south (bl : Nat) (s t : Square) (hts : s.val = t.val + 1) :
    (moveBoard .South bl).testBit t.val = (bl.testBit s.val && decide (s.val % 8 ≠ 0)) := by
  show ((bl &&& (ALL ^^^ RANKS 0)) >>> 1).testBit t.val = _
  rw [Nat.testBit_shiftRight, Nat.testBit_land]
  have h1 : 1 + t.val = s.val := by omega
  rw [h1, notRankFirst_bits s]

/-- Membership in a northward-shifted board reads the bit one step south. -/
theorem testBit_moveBoard_north (bl : Nat) (s t : Square) (hts : t.val = s.val + 1) :
    (moveBoard .North bl).testBit t.val = (bl.testBit s.val && decide (s.val % 8 ≠ 7)) := by
  show (((bl &&& (ALL ^^^ RANKS 7)) <<< 1) % U64).testBit t.val = _
  rw [show U64 = 2 ^ 64 from rfl, Nat.testBit_mod_two_pow, Nat.testBit_shiftLeft,
    Nat.testBit_land]
  have h1 : t.val - 1 = s.val := by omega
  have h2 : decide (t.val < 64) = true := decide_eq_true t.isLt
  have h3 : decide (t.val ≥ 1) = true := by simp; omega
  rw [h1, h2, h3, notRankEighth_bits s]
  simp

/-- Zero population count within the inspected bits means the zero board. -/
theorem countAux_eq_zero_iff :
    ∀ (fuel n : Nat), n < 2 ^ fuel → (countAux fuel n = 0 ↔ n = 0) := by
  intro fuel
  induction fuel with
  | zero =>
      intro n hn
      have : n = 0 := by simpa using hn
      simp [this, countAux]
  | succ fuel ih =>
      intro n hn
      constructor
      · intro h
        by_contra hne
        unfold countAux at h
        simp only [hne, if_false] at h
        have h2 : n % 2 = 0 := by omega
        have h3 : countAux fuel (n / 2) = 0 := by omega
        have hpow : 2 ^ (fuel + 1) = 2 ^ fuel * 2 := by ring
        have hlt : n / 2 < 2 ^ fuel := by omega
        have := (ih (n / 2) hlt).mp h3
        omega
      · intro h
        simp [h, countAux]

/-- A board with population count one is the power of two given by its
trailing-zero count. -/
theorem countAux_one_two_pow :
    ∀ (fuel n : Nat), n < 2 ^ fuel → countAux fuel n = 1 → n = 2 ^ tzAux fuel n := by
  intro fuel
  induction fuel with
  | zero =>
      intro n hn h
      simp [countAux] at h
  | succ fuel ih =>
      intro n hn h
      have hne : n ≠ 0 := by
        intro h0
        simp [h0, countAux] at h
      unfold countAux at h
      simp only [hne, if_false] at h
      have hpow : 2 ^ (fuel + 1) = 2 ^ fuel * 2 := by ring
      have hlt : n / 2 < 2 ^ fuel := by omega
      unfold tzAux
      by_cases hp : n % 2 = 1
      · have h0 : countAux fuel (n / 2) = 0 := by omega
        have hz := (countAux_eq_zero_iff fuel (n / 2) hlt).mp h0
        have : n = 1 := by omega
        simp [hp, this]
      · have hp0 : n % 2 = 0 := by omega
        have h1 : countAux fuel (n / 2) = 1 := by omega
        have h2 := ih (n / 2) hlt h1
        simp only [hp, if_false]
        calc n = 2 * (n / 2) := by omega
        _ = 2 * 2 ^ tzAux fuel (n / 2) := by rw [← h2]
        _ = 2 ^ (1 + tzAux fuel (n / 2)) := by rw [pow_add, pow_one]

/-- C5: for every direction `d` and every square `s`, `move_board` applied to
the singleton of `s` is exactly the singleton of the square displaced by
`d`'s file/rank deltas when that square exists, and the empty board when the
step would leave the board — in particular the shift never wraps across a
file edge for any edge square. -/
theorem c5_move_board_never_wraps :
    ∀ (d : Direction) (s : Square),
      moveBoard d (intoBitboard s) =
        (match shiftTarget d s with
         | some t => intoBitboard t
         | none => EMPTY) := by
  intro d s
  cases d <;> revert s <;> decide

/-- C7: the Bitboard → Square conversion returns the unique occupied square
of a singleton board (the board is exactly that square's singleton), the
EmptyBoard error on the empty board, and the TooManySquares error whenever
more than one square is occupied. -/
theorem c7_bitboard_try_into_square (b : Bitboard) (hb : b < U64) :
    (count b = 0 → tryIntoSquare b = Except.error IntoSquareError.EmptyBoard)
      ∧ (count b = 1 → ∃ s : Square, tryIntoSquare b = Except.ok s ∧ b = intoBitboard s)
      ∧ (1 < count b → tryIntoSquare b = Except.error IntoSquareError.TooManySquares) := by
  have hb2 : b < 2 ^ 64 := hb
  refine ⟨?_, ?_, ?_⟩
  · intro h
    unfold tryIntoSquare
    split
    · rename_i heq; omega
    · rfl
    · rename_i hne1 hne0; exact absurd h hne0
  · intro h
    unfold tryIntoSquare
    split
    · refine ⟨_, rfl, ?_⟩
      rw [intoBitboard_two_pow]
      exact countAux_one_two_pow 64 b hb2 h
    · rename_i heq; omega
    · rename_i hne1 hne0; exact absurd h hne1
  · intro h
    unfold tryIntoSquare
    split
    · rename_i heq; omega
    · rename_i heq; omega
    · rfl

/-- C7 witness: the singleton board of square index 3 converts to that
square. -/
theorem c7_witness :
    ∃ s : Square, tryIntoSquare 8 = Except.ok s ∧ (8 : Bitboard) = intoBitboard s :=
  (c7_bitboard_try_into_square 8 (by decide)).2.1 (by decide)

/-- C8: a pawn whose one-step-forward square carries a blocker has no quiet
moves at all. -/
theorem c8_pawn_quiet_blocked (c : Color) (s t : Square) (bl : Bitboard)
    (ht : moveSquare (forwardDirection c) s = some t)
    (hin : bl &&& intoBitboard t ≠ 0) :
    pawnQuietMoves c s bl = EMPTY := by
  have hbit : bl.testBit t.val = true := (land_intoBitboard_ne bl t).mp hin
  have hcond : (moveBoard (backwardDirection c) bl).testBit s.val = true := by
    cases c with
    | White =>
        obtain ⟨h1, h2⟩ := moveSquare_north_facts s t ht
        show (moveBoard .South bl).testBit s.val = true
        rw [testBit_moveBoard_south bl t s (by omega), hbit]
        simp
        omega
    | Black =>
        obtain ⟨h1, h2⟩ := moveSquare_south_facts s t ht
        show (moveBoard .North bl).testBit s.val = true
        rw [testBit_moveBoard_north bl t s (by omega), hbit]
        simp
        omega
  have hne : moveBoard (backwardDirection c) bl &&& intoBitboard s ≠ 0 :=
    (land_intoBitboard_ne _ s).mpr hcond
  unfold pawnQuietMoves
  simp [isEmpty, EMPTY, hne]

/-- C8 witness: a white pawn on A2 with a blocker on A3 has no quiet move. -/
theorem c8_witness :
    pawnQuietMoves Color.White 1 (intoBitboard 2) = EMPTY :=
  c8_pawn_quiet_blocked Color.White 1 2 (intoBitboard 2) (by decide) (by decide)

/-- Table fact behind C9: the cached quiet-move table of a pawn on its second
rank always contains the two-step (fourth-rank) square. -/
theorem pawn_table_second_rank :
    ∀ (c : Color) (s : Square), squareRank s = secondRank c →
      naivePawnMoves c s EMPTY &&& intoBitboard (squareNew (squareFile s) (fourthRank c)) ≠ 0 := by
  decide

/-- C9: a pawn on its second rank whose one-step-forward square is free is
offered the two-step square by both the cached oracle and the naive
generator, regardless of whether the two-step square itself is blocked. -/
theorem c9_pawn_double_step_ignores_blocker (c : Color) (s t : Square) (bl : Bitboard)
    (hrank : squareRank s = secondRank c)
    (ht : moveSquare (forwardDirection c) s = some t)
    (hfree : bl &&& intoBitboard t = 0) :
    pawnQuietMoves c s bl &&& intoBitboard (squareNew (squareFile s) (fourthRank c)) ≠ 0
      ∧ naivePawnMoves c s bl &&& intoBitboard (squareNew (squareFile s) (fourthRank c)) ≠ 0 := by
  have hbitfree : bl.testBit t.val = false := by
    cases h : bl.testBit t.val
    · rfl
    · exact absurd hfree ((land_intoBitboard_ne bl t).mpr h)
  have hcond : (moveBoard (backwardDirection c) bl).testBit s.val = false := by
    cases c with
    | White =>
        obtain ⟨h1, h2⟩ := moveSquare_north_facts s t ht
        show (moveBoard .South bl).testBit s.val = false
        rw [testBit_moveBoard_south bl t s (by omega), hbitfree]
        simp
    | Black =>
        obtain ⟨h1, h2⟩ := moveSquare_south_facts s t ht
        show (moveBoard .North bl).testBit s.val = false
        rw [testBit_moveBoard_north bl t s (by omega), hbitfree]
        simp
  have hz : moveBoard (backwardDirection c) bl &&& intoBitboard s = 0 := by
    by_contra hne
    rw [(land_intoBitboard_ne _ s).mp hne] at hcond
    simp at hcond
  have hquiet : pawnQuietMoves c s bl = naivePawnMoves c s EMPTY := by
    unfold pawnQuietMoves
    simp [isEmpty, hz, EMPTY]
  have hfirst : moveBoard (forwardDirection c) (intoBitboard s) = intoBitboard t := by
    rw [moveBoard_singleton, ht]
  have hrank07 : ¬(squareRank s = 0 ∨ squareRank s = 7) := by
    cases c <;> rw [hrank] <;> decide
  refine ⟨?_, ?_⟩
  · rw [hquiet]
    exact pawn_table_second_rank c s hrank
  · have h0 : intoBitboard t &&& bl = 0 := by rw [Nat.and_comm]; exact hfree
    simp only [naivePawnMoves]
    rw [if_neg hrank07, hfirst, if_pos hrank, h0]
    rw [show isEmpty 0 = true from rfl]
    simp only [if_true]
    rw [land_intoBitboard_ne, Nat.testBit_lor]
    simp [intoBitboard_two_pow, Nat.testBit_two_pow_self]

/-- Projections of the occupancy toggle that do not change. -/
theorem boardXor_castleRights (b : ChessBoard) (c : Color) (p : Piece) (s : Square) :
    (boardXor b c p s).castleRights = b.castleRights := rfl

/-- Castle-rights update can only shrink the rights of every color: whatever
side is allowed afterwards was allowed before. -/
theorem updateCastling_subset (b : ChessBoard) (col : Color) (p : Piece) (f : File) (c : Color) :
    (hasKingSide ((updateCastling b col p f).castleRights c) = true →
        hasKingSide (b.castleRights c) = true)
      ∧ (hasQueenSide ((updateCastling b col p f).castleRights c) = true →
        hasQueenSide (b.castleRights c) = true) := by
  simp only [updateCastling]
  split
  · exact ⟨fun x => x, fun x => x⟩
  · rename_i nr heq
    split
    · by_cases hc : c = col
      · subst hc
        simp only [eq_self_iff_true, if_true]
        split at heq
        · rw [Option.some.injEq] at heq
          subst heq
          generalize b.castleRights c = x
          revert x
          decide
        · rw [Option.some.injEq] at heq
          subst heq
          generalize b.castleRights c = x
          revert x
          decide
        · rw [Option.some.injEq] at heq
          subst heq
          exact ⟨fun hx => absurd hx (by decide), fun hx => absurd hx (by decide)⟩
        · exact absurd heq (by simp)
      · simp only [if_neg hc]
        exact ⟨fun x => x, fun x => x⟩
    · exact ⟨fun x => x, fun x => x⟩

/-- Castle-rights shrinking through the mover update followed by the
captured-rook update of play_move_inplace. -/
theorem updateCastling_subset_two (X : ChessBoard) (c1 c2 : Color) (p1 cp : Piece)
    (f1 f2 : File) (d : Square) (c : Color) :
    (hasKingSide ((updateCastling (boardXor (updateCastling X c1 p1 f1) c2 cp d)
          c2 cp f2).castleRights c) = true →
        hasKingSide (X.castleRights c) = true)
      ∧ (hasQueenSide ((updateCastling (boardXor (updateCastling X c1 p1 f1) c2 cp d)
          c2 cp f2).castleRights c) = true →
        hasQueenSide (X.castleRights c) = true) := by
  obtain ⟨a1, a2⟩ :=
    updateCastling_subset (boardXor (updateCastling X c1 p1 f1) c2 cp d) c2 cp f2 c
  obtain ⟨b1, b2⟩ := updateCastling_subset X c1 p1 f1 c
  rw [boardXor_castleRights] at a1 a2
  exact ⟨fun h => b1 (a1 h), fun h => b2 (a2 h)⟩

/-- C10: an accepted play_move_inplace never adds a castling right: for each
color, king-side (resp. queen-side) castling allowed after the move was
already allowed before it. -/
theorem c10_play_only_removes_castle_rights (b : ChessBoard) (m : Move)
    (b2 : ChessBoard) (st : NonReversibleState)
    (h : playMoveInplace b m = some (b2, st)) (c : Color) :
    (hasKingSide (b2.castleRights c) = true → hasKingSide (b.castleRights c) = true)
      ∧ (hasQueenSide (b2.castleRights c) = true → hasQueenSide (b.castleRights c) = true) := by
  simp only [playMoveInplace] at h
  split at h
  · exact absurd h (by simp)
  · rename_i movePiece hfind
    rw [Option.some.injEq, Prod.mk.injEq] at h
    obtain ⟨hb2, hst⟩ := h
    subst hb2
    simp only [boardXor_castleRights]
    split
    · rename_i cp hcap
      split <;> split <;>
        exact updateCastling_subset_two _ b.side (colorNot b.side) movePiece cp
          (squareFile m.start) (squareFile m.destination) m.destination c
    · split <;> split <;>
        exact updateCastling_subset _ b.side movePiece (squareFile m.start) c

/-- Intersection with a singleton in the zero case reads the bit. -/
theorem land_intoBitboard_eq_zero (a : Nat) (s : Square) :
    a &&& intoBitboard s = 0 ↔ a.testBit s.val = false := by
  rw [intoBitboard_two_pow, Nat.and_two_pow]
  cases h : a.testBit s.val <;> simp [h]

/-- Toggling a square flips exactly its own bit. -/
theorem testBit_xor_single_self (x : Nat) (s : Square) :
    (x ^^^ intoBitboard s).testBit s.val = !x.testBit s.val := by
  rw [intoBitboard_two_pow, Nat.testBit_xor, Nat.testBit_two_pow_self]
  cases x.testBit s.val <;> rfl

/-- Toggling a square leaves every other bit unchanged. -/
theorem testBit_xor_single_other (x : Nat) (s t : Square) (h : s ≠ t) :
    (x ^^^ intoBitboard s).testBit t.val = x.testBit t.val := by
  rw [intoBitboard_two_pow, Nat.testBit_xor,
    Nat.testBit_two_pow_of_ne (fun hv => h (Fin.val_inj.mp hv))]
  cases x.testBit t.val <;> rfl

/-- Bits of disjoint boards cannot both be set. -/
theorem disjoint_testBit (a b' : Nat) (h : a &&& b' = 0) (i : Nat)
    (ha : a.testBit i = true) : b'.testBit i = false := by
  cases hb : b'.testBit i
  · rfl
  · have hband : (a &&& b').testBit i = true := by
      rw [Nat.testBit_land, ha, hb]; rfl
    rw [h] at hband
    simp at hband

/-- Fields of the occupancy toggle, spelled out. -/
theorem boardXor_pieceOccupancy (b : ChessBoard) (c : Color) (p : Piece) (s : Square)
    (q : Piece) :
    (boardXor b c p s).pieceOccupancy q =
      if q = p then b.pieceOccupancy q ^^^ intoBitboard s else b.pieceOccupancy q := rfl

/-- Color field of the occupancy toggle. -/
theorem boardXor_colorOccupancy (b : ChessBoard) (c : Color) (p : Piece) (s : Square)
    (c2 : Color) :
    (boardXor b c p s).colorOccupancy c2 =
      if c2 = c then b.colorOccupancy c2 ^^^ intoBitboard s else b.colorOccupancy c2 := rfl

/-- Combined field of the occupancy toggle. -/
theorem boardXor_combinedOccupancy (b : ChessBoard) (c : Color) (p : Piece) (s : Square) :
    (boardXor b c p s).combinedOccupancy = b.combinedOccupancy ^^^ intoBitboard s := rfl

/-- Non-occupancy fields that the occupancy toggle leaves alone. -/
theorem boardXor_enPassant (b : ChessBoard) (c : Color) (p : Piece) (s : Square) :
    (boardXor b c p s).enPassant = b.enPassant := rfl

/-- Half-move clock field of the occupancy toggle. -/
theorem boardXor_halfMoveClock (b : ChessBoard) (c : Color) (p : Piece) (s : Square) :
    (boardXor b c p s).halfMoveClock = b.halfMoveClock := rfl

/-- Total-plies field of the occupancy toggle. -/
theorem boardXor_totalPlies (b : ChessBoard) (c : Color) (p : Piece) (s : Square) :
    (boardXor b c p s).totalPlies = b.totalPlies := rfl

/-- Side field of the occupancy toggle. -/
theorem boardXor_side (b : ChessBoard) (c : Color) (p : Piece) (s : Square) :
    (boardXor b c p s).side = b.side := rfl

/-- Castle-rights update touches no occupancy board. -/
theorem updateCastling_pieceOccupancy (b : ChessBoard) (col : Color) (p : Piece) (f : File) :
    (updateCastling b col p f).pieceOccupancy = b.pieceOccupancy := by
  simp only [updateCastling]
  split
  · rfl
  · split <;> rfl

/-- Color boards are unchanged by the castle-rights update. -/
theorem updateCastling_colorOccupancy (b : ChessBoard) (col : Color) (p : Piece) (f : File) :
    (updateCastling b col p f).colorOccupancy = b.colorOccupancy := by
  simp only [updateCastling]
  split
  · rfl
  · split <;> rfl

/-- Combined board is unchanged by the castle-rights update. -/
theorem updateCastling_combinedOccupancy (b : ChessBoard) (col : Color) (p : Piece) (f : File) :
    (updateCastling b col p f).combinedOccupancy = b.combinedOccupancy := by
  simp only [updateCastling]
  split
  · rfl
  · split <;> rfl

/-- En-passant field is unchanged by the castle-rights update. -/
theorem updateCastling_enPassant (b : ChessBoard) (col : Color) (p : Piece) (f : File) :
    (updateCastling b col p f).enPassant = b.enPassant := by
  simp only [updateCastling]
  split
  · rfl
  · split <;> rfl

/-- Half-move clock is unchanged by the castle-rights update. -/
theorem updateCastling_halfMoveClock (b : ChessBoard) (col : Color) (p : Piece) (f : File) :
    (updateCastling b col p f).halfMoveClock = b.halfMoveClock := by
  simp only [updateCastling]
  split
  · rfl
  · split <;> rfl

/-- Total plies are unchanged by the castle-rights update. -/
theorem updateCastling_totalPlies (b : ChessBoard) (col : Color) (p : Piece) (f : File) :
    (updateCastling b col p f).totalPlies = b.totalPlies := by
  simp only [updateCastling]
  split
  · rfl
  · split <;> rfl

/-- Side to move is unchanged by the castle-rights update. -/
theorem updateCastling_side (b : ChessBoard) (col : Color) (p : Piece) (f : File) :
    (updateCastling b col p f).side = b.side := by
  simp only [updateCastling]
  split
  · rfl
  · split <;> rfl

/-- Flipping the side twice is the identity. -/
theorem colorNot_colorNot (c : Color) : colorNot (colorNot c) = c := by
  cases c <;> rfl

/-- The flipped color differs from the original. -/
theorem colorNot_ne (c : Color) : colorNot c ≠ c := by
  cases c <;> decide

/-- Computation of a find? over the piece list when exactly one piece
satisfies the predicate. -/
theorem pieces_find_of_unique (g : Piece → Bitboard) (x : Nat) (dp : Piece)
    (hdp : (g dp &&& x == 0) = false)
    (hall : ∀ q : Piece, q ≠ dp → (g q &&& x == 0) = true) :
    PIECES.find? (fun p => !isEmpty (g p &&& x)) = some dp := by
  cases dp
  case King =>
      simp only [PIECES, List.find?, isEmpty, EMPTY, hdp, Bool.not_false, Bool.not_true]
  case Queen =>
      simp only [PIECES, List.find?, isEmpty, EMPTY, hdp, Bool.not_false, Bool.not_true,
        hall .King (by decide)]
  case Rook =>
      simp only [PIECES, List.find?, isEmpty, EMPTY, hdp, Bool.not_false, Bool.not_true,
        hall .King (by decide), hall .Queen (by decide)]
  case Bishop =>
      simp only [PIECES, List.find?, isEmpty, EMPTY, hdp, Bool.not_false, Bool.not_true,
        hall .King (by decide), hall .Queen (by decide), hall .Rook (by decide)]
  case Knight =>
      simp only [PIECES, List.find?, isEmpty, EMPTY, hdp, Bool.not_false, Bool.not_true,
        hall .King (by decide), hall .Queen (by decide), hall .Rook (by decide),
        hall .Bishop (by decide)]
  case Pawn =>
      simp only [PIECES, List.find?, isEmpty, EMPTY, hdp, Bool.not_false, Bool.not_true,
        hall .King (by decide), hall .Queen (by decide), hall .Rook (by decide),
        hall .Bishop (by decide), hall .Knight (by decide)]

/-- C10 witness: playing E2 to E4 from the starting position leaves white's
king-side right a subset of what it was. -/
theorem c10_witness :
    (hasKingSide (((playMoveInplace defaultChessBoard ⟨33, 35, none⟩).getD
        (defaultChessBoard,
          ⟨defaultChessBoard.castleRights, none, 0, none⟩)).1.castleRights Color.White) = true →
      hasKingSide (defaultChessBoard.castleRights Color.White) = true)
    ∧ (hasQueenSide (((playMoveInplace defaultChessBoard ⟨33, 35, none⟩).getD
        (defaultChessBoard,
          ⟨defaultChessBoard.castleRights, none, 0, none⟩)).1.castleRights Color.White) = true →
      hasQueenSide (defaultChessBoard.castleRights Color.White) = true) :=
  c10_play_only_removes_castle_rights defaultChessBoard ⟨33, 35, none⟩ _
    ⟨defaultChessBoard.castleRights, none, 0, none⟩ (by decide) Color.White

/-- C9 witness: white pawn on A2, A3 free, A4 blocked: both generators still
contain A4. -/
theorem c9_witness :
    pawnQuietMoves Color.White 1 (intoBitboard 3) &&& intoBitboard 3 ≠ 0
      ∧ naivePawnMoves Color.White 1 (intoBitboard 3) &&& intoBitboard 3 ≠ 0 :=
  c9_pawn_double_step_ignores_blocker Color.White 1 2 (intoBitboard 3)
    (by decide) (by decide) (by decide)

end Seer


namespace Seer

theorem xor_left_comm (a b c : Nat) : a ^^^ (b ^^^ c) = b ^^^ (a ^^^ c) := by
  rw [← Nat.xor_assoc, Nat.xor_comm a b, Nat.xor_assoc]

/-- C1: `play` then `unplay` is the identity on the position — but only under
pseudo-legality side conditions that the code itself does not check.  The
hypotheses say: piece boards are pairwise disjoint (H1) and covered by the
two color boards (H3), the moving side occupies the start square (H4) but not
the destination (H5), no king sits on the destination (H6), and a promotion
move starts from a pawn (H7).  Under these, `unplayMove` applied to the board
and state returned by `playMoveInplace` restores the original board exactly.
The unqualified claim is false: see the counterexample below. -/
theorem c1_unplay_reverses_play (b : ChessBoard) (m : Move) (b2 : ChessBoard)
    (st : NonReversibleState)
    (H1 : ∀ p q : Piece, p ≠ q → b.pieceOccupancy p &&& b.pieceOccupancy q = 0)
    (H3 : ∀ p : Piece, b.pieceOccupancy p &&&
      (b.colorOccupancy Color.White ||| b.colorOccupancy Color.Black) = b.pieceOccupancy p)
    (H4 : b.colorOccupancy b.side &&& intoBitboard m.start ≠ 0)
    (H5 : b.colorOccupancy b.side &&& intoBitboard m.destination = 0)
    (H6 : b.pieceOccupancy Piece.King &&& intoBitboard m.destination = 0)
    (H7 : m.promotion.isSome = true → b.pieceOccupancy Piece.Pawn &&& intoBitboard m.start ≠ 0)
    (h : playMoveInplace b m = some (b2, st)) :
    unplayMove b2 m st = some b := by
  have hsd : m.start ≠ m.destination := by
    intro he
    rw [he] at H4
    exact H4 H5
  obtain ⟨Bpo, Bco, Bcomb, Bcr, Bep, Bhmc, Btp, Bside⟩ := b
  simp only [playMoveInplace] at h
  split at h
  · exact absurd h (by simp)
  · rename_i mp hfind
    rw [Option.some.injEq, Prod.mk.injEq] at h
    obtain ⟨hb2, hst⟩ := h
    subst hb2
    subst hst
    dsimp only at H1 H3 H4 H5 H6 H7
    unfold unplayMove
    dsimp only [occupancy]
    rcases hpromo : m.promotion with _ | promoPiece
    all_goals rcases hcap : (List.find?
        (fun p => !isEmpty (Bpo p &&& Bco (colorNot Bside) &&& intoBitboard m.destination))
        (List.drop 1 PIECES)) with _ | cp
    all_goals simp only [Option.isSome, Bool.false_or, Bool.true_or, Option.getD,
      apply_ite ChessBoard.pieceOccupancy, apply_ite ChessBoard.colorOccupancy,
      apply_ite ChessBoard.combinedOccupancy, apply_ite ChessBoard.totalPlies,
      apply_ite ChessBoard.side, ite_self, updateCastling_pieceOccupancy,
      updateCastling_colorOccupancy, updateCastling_combinedOccupancy,
      updateCastling_totalPlies, updateCastling_side, boardXor_pieceOccupancy,
      boardXor_colorOccupancy, boardXor_combinedOccupancy, boardXor_totalPlies,
      boardXor_side]
    case none.none =>
      have hnocc : ∀ q : Piece, (Bpo q).testBit m.destination.val = false := by
        intro q
        by_cases hqk : q = Piece.King
        · subst hqk
          exact (land_intoBitboard_eq_zero _ _).mp H6
        · have hqmem : q ∈ List.drop 1 PIECES := by
            cases q
            · exact absurd rfl hqk
            all_goals decide
          have hq := List.find?_eq_none.mp hcap q hqmem
          simp only [isEmpty, EMPTY, Bool.not_eq_true', beq_eq_false_iff_ne, ne_eq,
            not_not] at hq
          cases hxq : (Bpo q).testBit m.destination.val
          · rfl
          · exfalso
            have hu : (Bco Color.White ||| Bco Color.Black).testBit m.destination.val = true := by
              have h3q := congrArg (fun z => z.testBit m.destination.val) (H3 q)
              simp only [Nat.testBit_land] at h3q
              rw [hxq] at h3q
              simpa using h3q
            have hside : (Bco Bside).testBit m.destination.val = false :=
              (land_intoBitboard_eq_zero _ _).mp H5
            have hopp : (Bco (colorNot Bside)).testBit m.destination.val = true := by
              rw [Nat.testBit_lor] at hu
              cases Bside
              · simpa [colorNot, hside] using hu
              · simpa [colorNot, hside] using hu
            have hx : Bpo q &&& Bco (colorNot Bside) &&& intoBitboard m.destination ≠ 0 := by
              rw [Ne, land_intoBitboard_eq_zero, Nat.testBit_land, hxq, hopp]
              simp
            exact hx hq
      split
      · rename_i heqn
        exfalso
        have hmem : mp ∈ PIECES := by cases mp <;> decide
        have hnp := List.find?_eq_none.mp heqn mp hmem
        apply hnp
        rw [if_pos rfl, if_pos rfl]
        have hbit : ((Bpo mp ^^^ intoBitboard m.start) ^^^
            intoBitboard m.destination).testBit m.destination.val = true := by
          rw [testBit_xor_single_self, testBit_xor_single_other _ _ _ hsd, hnocc mp]
          rfl
        have hne := (land_intoBitboard_ne _ _).mpr hbit
        simp [isEmpty, EMPTY, hne]
      · rename_i mpu heqs
        have hmpu : mpu = mp := by
          have hp := List.find?_some heqs
          by_contra hne
          rw [if_neg hne, if_neg hne] at hp
          simp only [isEmpty, EMPTY, Bool.not_eq_true', beq_eq_false_iff_ne, ne_eq] at hp
          have := (land_intoBitboard_ne _ _).mp hp
          rw [hnocc mpu] at this
          exact Bool.noConfusion this
        subst hmpu
        rw [Option.some.injEq]
        simp only [ChessBoard.mk.injEq]
        refine ⟨funext fun q => ?_, funext fun c2 => ?_, ?_, ?_, ?_, ?_, ?_, ?_⟩
        · simp only [boardXor_pieceOccupancy, updateCastling_pieceOccupancy,
            apply_ite ChessBoard.pieceOccupancy, ite_self]
          by_cases hq : q = mpu
          · simp only [hq, eq_self_iff_true, if_true]
            rw [Nat.xor_cancel_right, Nat.xor_cancel_right]
          · simp only [if_neg hq]
        · simp only [boardXor_colorOccupancy, updateCastling_colorOccupancy,
            apply_ite ChessBoard.colorOccupancy, ite_self, colorNot_colorNot]
          by_cases hc2 : c2 = Bside
          · simp only [hc2, eq_self_iff_true, if_true]
            rw [Nat.xor_cancel_right, Nat.xor_cancel_right]
          · simp only [if_neg hc2]
        · rw [Nat.xor_cancel_right, Nat.xor_cancel_right]
        · rfl
        · rfl
        · rfl
        · omega
        · exact colorNot_colorNot Bside

    case none.some =>
      have hp := List.find?_some hcap
      simp only [isEmpty, EMPTY, Bool.not_eq_true', beq_eq_false_iff_ne, ne_eq] at hp
      have hcpbit : (Bpo cp).testBit m.destination.val = true := by
        have hb := (land_intoBitboard_ne _ _).mp hp
        rw [Nat.testBit_land, Bool.and_eq_true] at hb
        exact hb.1
      have hothers : ∀ q : Piece, q ≠ cp → (Bpo q).testBit m.destination.val = false :=
        fun q hqcp => disjoint_testBit _ _ (H1 cp q (fun he => hqcp he.symm)) _ hcpbit
      split
      · rename_i heqn
        exfalso
        have hnp := List.find?_eq_none.mp heqn mp (by cases mp <;> decide)
        apply hnp
        rw [if_pos rfl, if_pos rfl]
        have hbit : (((if mp = cp then Bpo mp ^^^ intoBitboard m.destination else Bpo mp)
            ^^^ intoBitboard m.start)
            ^^^ intoBitboard m.destination).testBit m.destination.val = true := by
          rw [testBit_xor_single_self, testBit_xor_single_other _ _ _ hsd]
          by_cases hmc : mp = cp
          · rw [if_pos hmc, testBit_xor_single_self, hmc, hcpbit]
            rfl
          · rw [if_neg hmc, hothers mp hmc]
            rfl
        have hne := (land_intoBitboard_ne _ _).mpr hbit
        simp [isEmpty, EMPTY, hne]
      · rename_i mpu heqs
        have hmpu : mpu = mp := by
          have hp2 := List.find?_some heqs
          by_contra hne2
          rw [if_neg hne2, if_neg hne2] at hp2
          simp only [isEmpty, EMPTY, Bool.not_eq_true', beq_eq_false_iff_ne, ne_eq] at hp2
          have hb2 := (land_intoBitboard_ne _ _).mp hp2
          by_cases hmc : mpu = cp
          · rw [if_pos hmc, testBit_xor_single_self, hmc, hcpbit] at hb2
            exact Bool.noConfusion hb2
          · rw [if_neg hmc, hothers mpu hmc] at hb2
            exact Bool.noConfusion hb2
        subst hmpu
        rw [Option.some.injEq]
        simp only [ChessBoard.mk.injEq]
        refine ⟨funext fun q => ?_, funext fun c2 => ?_, ?_, ?_, ?_, ?_, ?_, ?_⟩
        · simp only [boardXor_pieceOccupancy, updateCastling_pieceOccupancy,
            apply_ite ChessBoard.pieceOccupancy, ite_self]
          cases q <;> cases mpu <;> cases cp <;>
            simp [Nat.xor_assoc, Nat.xor_comm, xor_left_comm, Nat.xor_self,
              Nat.xor_cancel_left, Nat.xor_cancel_right, Nat.xor_zero, Nat.zero_xor]
        · simp only [boardXor_colorOccupancy, updateCastling_colorOccupancy,
            apply_ite ChessBoard.colorOccupancy, ite_self, colorNot_colorNot]
          cases c2 <;> cases Bside <;>
            simp [colorNot, Nat.xor_assoc, Nat.xor_comm, xor_left_comm, Nat.xor_self,
              Nat.xor_cancel_left, Nat.xor_cancel_right, Nat.xor_zero, Nat.zero_xor]
        · simp [Nat.xor_assoc, Nat.xor_comm, xor_left_comm, Nat.xor_self,
            Nat.xor_cancel_left, Nat.xor_cancel_right, Nat.xor_zero, Nat.zero_xor]
        · rfl
        · rfl
        · rfl
        · omega
        · exact colorNot_colorNot Bside

    case some.none =>
      have hmpbit : (Bpo mp).testBit m.start.val = true := by
        have h1 := List.find?_some hfind
        simp only [isEmpty, EMPTY, Bool.not_eq_true', beq_eq_false_iff_ne, ne_eq] at h1
        exact (land_intoBitboard_ne _ _).mp h1
      have hmppawn : mp = Piece.Pawn := by
        by_contra hne
        have h7 := (land_intoBitboard_ne _ _).mp (H7 (by rw [hpromo]; rfl))
        have := disjoint_testBit _ _ (H1 mp Piece.Pawn hne) _ hmpbit
        rw [h7] at this
        exact Bool.noConfusion this
      subst hmppawn
      have hnocc : ∀ q : Piece, (Bpo q).testBit m.destination.val = false := by
        intro q
        by_cases hqk : q = Piece.King
        · subst hqk
          exact (land_intoBitboard_eq_zero _ _).mp H6
        · have hqmem : q ∈ List.drop 1 PIECES := by
            cases q
            · exact absurd rfl hqk
            all_goals decide
          have hq := List.find?_eq_none.mp hcap q hqmem
          simp only [isEmpty, EMPTY, Bool.not_eq_true', beq_eq_false_iff_ne, ne_eq,
            not_not] at hq
          cases hxq : (Bpo q).testBit m.destination.val
          · rfl
          · exfalso
            have hu : (Bco Color.White ||| Bco Color.Black).testBit m.destination.val = true := by
              have h3q := congrArg (fun z => z.testBit m.destination.val) (H3 q)
              simp only [Nat.testBit_land] at h3q
              rw [hxq] at h3q
              simpa using h3q
            have hside : (Bco Bside).testBit m.destination.val = false :=
              (land_intoBitboard_eq_zero _ _).mp H5
            have hopp : (Bco (colorNot Bside)).testBit m.destination.val = true := by
              rw [Nat.testBit_lor] at hu
              cases Bside
              · simpa [colorNot, hside] using hu
              · simpa [colorNot, hside] using hu
            have hx : Bpo q &&& Bco (colorNot Bside) &&& intoBitboard m.destination ≠ 0 := by
              rw [Ne, land_intoBitboard_eq_zero, Nat.testBit_land, hxq, hopp]
              simp
            exact hx hq
      split
      · rename_i heqn
        exfalso
        have hnp := List.find?_eq_none.mp heqn promoPiece (by cases promoPiece <;> decide)
        apply hnp
        rw [if_pos rfl]
        have hbit : ((if promoPiece = Piece.Pawn then Bpo promoPiece ^^^ intoBitboard m.start
            else Bpo promoPiece)
            ^^^ intoBitboard m.destination).testBit m.destination.val = true := by
          rw [testBit_xor_single_self]
          by_cases hpp : promoPiece = Piece.Pawn
          · rw [if_pos hpp, testBit_xor_single_other _ _ _ hsd, hnocc promoPiece]
            rfl
          · rw [if_neg hpp, hnocc promoPiece]
            rfl
        have hne := (land_intoBitboard_ne _ _).mpr hbit
        simp [isEmpty, EMPTY, hne]
      · rename_i mpu heqs
        have hmpu : mpu = promoPiece := by
          have hp2 := List.find?_some heqs
          by_contra hne2
          rw [if_neg hne2] at hp2
          simp only [isEmpty, EMPTY, Bool.not_eq_true', beq_eq_false_iff_ne, ne_eq] at hp2
          have hb2 := (land_intoBitboard_ne _ _).mp hp2
          by_cases hmp2 : mpu = Piece.Pawn
          · rw [if_pos hmp2, testBit_xor_single_other _ _ _ hsd, hnocc mpu] at hb2
            exact Bool.noConfusion hb2
          · rw [if_neg hmp2, hnocc mpu] at hb2
            exact Bool.noConfusion hb2
        subst hmpu
        rw [Option.some.injEq]
        simp only [ChessBoard.mk.injEq]
        refine ⟨funext fun q => ?_, funext fun c2 => ?_, ?_, ?_, ?_, ?_, ?_, ?_⟩
        · simp only [boardXor_pieceOccupancy, updateCastling_pieceOccupancy,
            apply_ite ChessBoard.pieceOccupancy, ite_self]
          cases q <;> cases mpu <;>
            simp [Nat.xor_assoc, Nat.xor_comm, xor_left_comm, Nat.xor_self,
              Nat.xor_cancel_left, Nat.xor_cancel_right, Nat.xor_zero, Nat.zero_xor]
        · simp only [boardXor_colorOccupancy, updateCastling_colorOccupancy,
            apply_ite ChessBoard.colorOccupancy, ite_self, colorNot_colorNot]
          cases c2 <;> cases Bside <;>
            simp [colorNot, Nat.xor_assoc, Nat.xor_comm, xor_left_comm, Nat.xor_self,
              Nat.xor_cancel_left, Nat.xor_cancel_right, Nat.xor_zero, Nat.zero_xor]
        · simp [Nat.xor_assoc, Nat.xor_comm, xor_left_comm, Nat.xor_self,
            Nat.xor_cancel_left, Nat.xor_cancel_right, Nat.xor_zero, Nat.zero_xor]
        · rfl
        · rfl
        · rfl
        · omega
        · exact colorNot_colorNot Bside

    case some.some =>
      have hmpbit : (Bpo mp).testBit m.start.val = true := by
        have h1 := List.find?_some hfind
        simp only [isEmpty, EMPTY, Bool.not_eq_true', beq_eq_false_iff_ne, ne_eq] at h1
        exact (land_intoBitboard_ne _ _).mp h1
      have hmppawn : mp = Piece.Pawn := by
        by_contra hne
        have h7 := (land_intoBitboard_ne _ _).mp (H7 (by rw [hpromo]; rfl))
        have := disjoint_testBit _ _ (H1 mp Piece.Pawn hne) _ hmpbit
        rw [h7] at this
        exact Bool.noConfusion this
      subst hmppawn
      have hp := List.find?_some hcap
      simp only [isEmpty, EMPTY, Bool.not_eq_true', beq_eq_false_iff_ne, ne_eq] at hp
      have hcpbit : (Bpo cp).testBit m.destination.val = true := by
        have hb := (land_intoBitboard_ne _ _).mp hp
        rw [Nat.testBit_land, Bool.and_eq_true] at hb
        exact hb.1
      have hothers : ∀ q : Piece, q ≠ cp → (Bpo q).testBit m.destination.val = false :=
        fun q hqcp => disjoint_testBit _ _ (H1 cp q (fun he => hqcp he.symm)) _ hcpbit
      split
      · rename_i heqn
        exfalso
        have hnp := List.find?_eq_none.mp heqn promoPiece (by cases promoPiece <;> decide)
        apply hnp
        rw [if_pos rfl]
        have hbit : ((if promoPiece = Piece.Pawn then
              (if promoPiece = cp then Bpo promoPiece ^^^ intoBitboard m.destination
                else Bpo promoPiece) ^^^ intoBitboard m.start
            else (if promoPiece = cp then Bpo promoPiece ^^^ intoBitboard m.destination
                else Bpo promoPiece))
            ^^^ intoBitboard m.destination).testBit m.destination.val = true := by
          rw [testBit_xor_single_self]
          by_cases hpp : promoPiece = Piece.Pawn <;> by_cases hpc : promoPiece = cp
          · rw [if_pos hpp, testBit_xor_single_other _ _ _ hsd, if_pos hpc,
              testBit_xor_single_self, hpc, hcpbit]
            rfl
          · rw [if_pos hpp, testBit_xor_single_other _ _ _ hsd, if_neg hpc,
              hothers promoPiece hpc]
            rfl
          · rw [if_neg hpp, if_pos hpc, testBit_xor_single_self, hpc, hcpbit]
            rfl
          · rw [if_neg hpp, if_neg hpc, hothers promoPiece hpc]
            rfl
        have hne := (land_intoBitboard_ne _ _).mpr hbit
        simp [isEmpty, EMPTY, hne]
      · rename_i mpu heqs
        have hmpu : mpu = promoPiece := by
          have hp2 := List.find?_some heqs
          by_contra hne2
          rw [if_neg hne2] at hp2
          simp only [isEmpty, EMPTY, Bool.not_eq_true', beq_eq_false_iff_ne, ne_eq] at hp2
          have hb2 := (land_intoBitboard_ne _ _).mp hp2
          by_cases hmp2 : mpu = Piece.Pawn <;> by_cases hmc : mpu = cp
          · rw [if_pos hmp2, testBit_xor_single_other _ _ _ hsd, if_pos hmc,
              testBit_xor_single_self, hmc, hcpbit] at hb2
            exact Bool.noConfusion hb2
          · rw [if_pos hmp2, testBit_xor_single_other _ _ _ hsd, if_neg hmc,
              hothers mpu hmc] at hb2
            exact Bool.noConfusion hb2
          · rw [if_neg hmp2, if_pos hmc, testBit_xor_single_self, hmc, hcpbit] at hb2
            exact Bool.noConfusion hb2
          · rw [if_neg hmp2, if_neg hmc, hothers mpu hmc] at hb2
            exact Bool.noConfusion hb2
        subst hmpu
        rw [Option.some.injEq]
        simp only [ChessBoard.mk.injEq]
        refine ⟨funext fun q => ?_, funext fun c2 => ?_, ?_, ?_, ?_, ?_, ?_, ?_⟩
        · simp only [boardXor_pieceOccupancy, updateCastling_pieceOccupancy,
            apply_ite ChessBoard.pieceOccupancy, ite_self]
          cases q <;> cases mpu <;> cases cp <;>
            simp [Nat.xor_assoc, Nat.xor_comm, xor_left_comm, Nat.xor_self,
              Nat.xor_cancel_left, Nat.xor_cancel_right, Nat.xor_zero, Nat.zero_xor]
        · simp only [boardXor_colorOccupancy, updateCastling_colorOccupancy,
            apply_ite ChessBoard.colorOccupancy, ite_self, colorNot_colorNot]
          cases c2 <;> cases Bside <;>
            simp [colorNot, Nat.xor_assoc, Nat.xor_comm, xor_left_comm, Nat.xor_self,
              Nat.xor_cancel_left, Nat.xor_cancel_right, Nat.xor_zero, Nat.zero_xor]
        · simp [Nat.xor_assoc, Nat.xor_comm, xor_left_comm, Nat.xor_self,
            Nat.xor_cancel_left, Nat.xor_cancel_right, Nat.xor_zero, Nat.zero_xor]
        · rfl
        · rfl
        · rfl
        · omega
        · exact colorNot_colorNot Bside

/-- C1 counterexample: the unqualified round-trip claim fails.  From the
starting position, `playMoveInplace` accepts the pseudo-illegal move
A1→A3 with promotion to a queen (the code never checks that the mover is a
pawn), and `unplayMove` then puts a pawn back on A1 instead of the rook:
play is accepted, yet play-then-unplay does not restore the position. -/
theorem c1_counterexample :
    (playMoveInplace defaultChessBoard
        ⟨⟨0, by decide⟩, ⟨2, by decide⟩, some Piece.Queen⟩) ≠ none
    ∧ (playMoveInplace defaultChessBoard
        ⟨⟨0, by decide⟩, ⟨2, by decide⟩, some Piece.Queen⟩).bind
      (fun pr => unplayMove pr.1 ⟨⟨0, by decide⟩, ⟨2, by decide⟩, some Piece.Queen⟩ pr.2)
      ≠ some defaultChessBoard := by
  constructor
  · decide
  · decide

theorem c1_witness :
    Option.elim (playMoveInplace defaultChessBoard ⟨⟨33, by decide⟩, ⟨35, by decide⟩, none⟩)
      False
      (fun pr =>
        unplayMove pr.1 ⟨⟨33, by decide⟩, ⟨35, by decide⟩, none⟩ pr.2
          = some defaultChessBoard) := by
  rcases hpl : playMoveInplace defaultChessBoard ⟨⟨33, by decide⟩, ⟨35, by decide⟩, none⟩
    with _ | ⟨b2, st⟩
  · exact absurd hpl (by decide)
  · exact c1_unplay_reverses_play defaultChessBoard ⟨⟨33, by decide⟩, ⟨35, by decide⟩, none⟩
      b2 st (by decide) (by decide) (by decide) (by decide) (by decide) (by decide) hpl

end Seer

namespace Seer

/-! ### Generic bitwise toolkit for the carry-rippler analysis -/

theorem div_two_land (x y : Nat) : (x &&& y) / 2 = x / 2 &&& y / 2 := by
  apply Nat.eq_of_testBit_eq
  intro i
  simp [Nat.testBit_div_two, Nat.testBit_land]

theorem div_two_xor (x y : Nat) : (x ^^^ y) / 2 = x / 2 ^^^ y / 2 := by
  apply Nat.eq_of_testBit_eq
  intro i
  simp [Nat.testBit_div_two, Nat.testBit_xor]

theorem mod_two_eq_toNat_testBit (n : Nat) : n % 2 = (n.testBit 0).toNat := by
  rw [Nat.testBit_zero]
  rcases Nat.mod_two_eq_zero_or_one n with h | h <;> simp [h]

theorem mod_two_land (x y : Nat) : (x &&& y) % 2 = x % 2 * (y % 2) := by
  have hb : (x &&& y).testBit 0 = (x.testBit 0 && y.testBit 0) := by
    simp [Nat.testBit_land]
  rw [mod_two_eq_toNat_testBit, mod_two_eq_toNat_testBit, mod_two_eq_toNat_testBit, hb]
  cases x.testBit 0 <;> cases y.testBit 0 <;> simp

theorem disjoint_add_eq_xor : ∀ x y : Nat, x &&& y = 0 → x + y = x ^^^ y := by
  intro x
  induction x using Nat.strong_induction_on with
  | _ x ih =>
    intro y h
    rcases Nat.eq_zero_or_pos x with hx0 | hx0
    · simp [hx0]
    have hdiv : x / 2 &&& y / 2 = 0 := by
      rw [← div_two_land, h]
    have hlow : x % 2 * (y % 2) = 0 := by
      rw [← mod_two_land, h]
    have ihh := ih (x / 2) (Nat.div_lt_self hx0 (by omega)) (y / 2) hdiv
    have hxd := Nat.div_add_mod x 2
    have hyd := Nat.div_add_mod y 2
    have hXd := Nat.div_add_mod (x ^^^ y) 2
    rw [div_two_xor] at hXd
    have hXm : (x ^^^ y) % 2 = x % 2 + y % 2 := by
      have hb : (x ^^^ y).testBit 0 = ((x.testBit 0).xor (y.testBit 0)) := by
        rw [Nat.testBit_xor]
      have h0 : (x.testBit 0 && y.testBit 0) = false := by
        have hz := congrArg (fun z => Nat.testBit z 0) h
        simpa [Nat.testBit_land] using hz
      rw [mod_two_eq_toNat_testBit, mod_two_eq_toNat_testBit,
        mod_two_eq_toNat_testBit, hb]
      cases hx1 : x.testBit 0 <;> cases hy1 : y.testBit 0 <;> simp_all
    omega

theorem disjoint_xor_eq_lor (x y : Nat) (h : x &&& y = 0) : x ^^^ y = x ||| y := by
  apply Nat.eq_of_testBit_eq
  intro i
  have hb : (x &&& y).testBit i = false := by rw [h]; exact Nat.zero_testBit i
  rw [Nat.testBit_land] at hb
  rw [Nat.testBit_xor, Nat.testBit_lor]
  cases hx : x.testBit i <;> cases hy : y.testBit i <;> simp_all

theorem disjoint_add_eq_lor (x y : Nat) (h : x &&& y = 0) : x + y = x ||| y :=
  (disjoint_add_eq_xor x y h).trans (disjoint_xor_eq_lor x y h)

/-- `x &&& y = x` says exactly that every bit of `x` is a bit of `y`. -/
theorem subset_testBit {x y : Nat} (h : x &&& y = x) {i : Nat}
    (hx : x.testBit i = true) : y.testBit i = true := by
  have := congrArg (fun z => z.testBit i) h
  simp only [Nat.testBit_land] at this
  cases hy : y.testBit i
  · rw [hx, hy] at this
    simpa using this
  · rfl

theorem land_eq_self_iff {x y : Nat} :
    x &&& y = x ↔ ∀ i, x.testBit i = true → y.testBit i = true := by
  constructor
  · intro h i hx
    exact subset_testBit h hx
  · intro h
    apply Nat.eq_of_testBit_eq
    intro i
    rw [Nat.testBit_land]
    cases hx : x.testBit i
    · simp
    · simp [h i hx]

/-- Subtracting a sub-mask is bitwise difference: if `x ⊆ y` then
`y - x = y ^^^ x`, and in particular `x ≤ y`. -/
theorem sub_of_subset {x y : Nat} (h : x &&& y = x) :
    y - x = y ^^^ x ∧ x ≤ y := by
  have hdisj : x &&& (y ^^^ x) = 0 := by
    apply Nat.eq_of_testBit_eq
    intro i
    rw [Nat.testBit_land, Nat.testBit_xor, Nat.zero_testBit]
    cases hx : x.testBit i
    · simp
    · simp [subset_testBit h hx]
  have hor : x ||| (y ^^^ x) = y := by
    apply Nat.eq_of_testBit_eq
    intro i
    rw [Nat.testBit_lor, Nat.testBit_xor]
    cases hx : x.testBit i
    · simp
    · simp [subset_testBit h hx]
  have hadd : x + (y ^^^ x) = y := by
    rw [disjoint_add_eq_lor _ _ hdisj, hor]
  constructor
  · omega
  · omega

/-- Complementing against the all-ones word is subtraction. -/
theorem all_ones_sub (x : Nat) (hx : x < U64) : (U64 - 1) - x = (U64 - 1) ^^^ x := by
  have hsub : x &&& (U64 - 1) = x := by
    unfold U64
    rw [Nat.and_pow_two_sub_one_eq_mod, Nat.mod_eq_of_lt]
    exact hx
  have := (sub_of_subset hsub).1
  rw [this, Nat.xor_comm]

/-- A value with no set bit below `k` is a multiple of `2 ^ k`. -/
theorem mod_two_pow_eq_zero_of_low_bits {x k : Nat}
    (h : ∀ i, i < k → x.testBit i = false) : x % 2 ^ k = 0 := by
  have : x % 2 ^ k = 0 % 2 ^ k := by
    apply Nat.eq_of_testBit_eq
    intro i
    rw [Nat.testBit_mod_two_pow, Nat.testBit_mod_two_pow]
    by_cases hi : i < k
    · simp [hi, h i hi, Nat.zero_testBit]
    · simp [hi]
  simpa using this

theorem testBit_false_of_mod_two_pow {x k i : Nat} (h : x % 2 ^ k = 0)
    (hi : i < k) : x.testBit i = false := by
  have := Nat.testBit_mod_two_pow x k i
  rw [h, Nat.zero_testBit] at this
  simpa [hi] using this.symm

end Seer

namespace Seer

/-! ### Trailing-zero and popcount facts -/

theorem tzAux_spec : ∀ (fuel b : Nat), b ≠ 0 → b < 2 ^ fuel →
    b.testBit (tzAux fuel b) = true ∧ ∀ i, i < tzAux fuel b → b.testBit i = false := by
  intro fuel
  induction fuel with
  | zero =>
    intro b hb hlt
    norm_num at hlt
    omega
  | succ fuel ih =>
    intro b hb hlt
    unfold tzAux
    by_cases hodd : b % 2 = 1
    · rw [if_pos hodd]
      refine ⟨?_, fun i hi => absurd hi (by omega)⟩
      rw [Nat.testBit_zero]
      simp [hodd]
    · rw [if_neg hodd]
      have hb2 : b / 2 ≠ 0 := by omega
      have hlt2 : b / 2 < 2 ^ fuel := by
        have h2 : 2 ^ (fuel + 1) = 2 * 2 ^ fuel := by ring
        omega
      obtain ⟨h1, h2⟩ := ih (b / 2) hb2 hlt2
      constructor
      · rw [show 1 + tzAux fuel (b / 2) = tzAux fuel (b / 2) + 1 from by omega,
          Nat.testBit_add_one]
        exact h1
      · intro i hi
        cases i with
        | zero =>
          rw [Nat.testBit_zero]
          simp [hodd]
        | succ j =>
          rw [Nat.testBit_add_one]
          exact h2 j (by omega)

theorem trailingZeros_spec (b : Nat) (hb0 : b ≠ 0) (hb : b < U64) :
    b.testBit (trailingZeros b) = true
      ∧ ∀ i, i < trailingZeros b → b.testBit i = false :=
  tzAux_spec 64 b hb0 hb

theorem countAux_eq_sum : ∀ (fuel b : Nat), b < 2 ^ fuel →
    countAux fuel b = ∑ i ∈ Finset.range fuel, (if b.testBit i then 1 else 0) := by
  intro fuel
  induction fuel with
  | zero =>
    intro b hlt
    norm_num at hlt
    simp [hlt, countAux]
  | succ fuel ih =>
    intro b hlt
    rw [show countAux (fuel + 1) b
        = if b = 0 then 0 else b % 2 + countAux fuel (b / 2) from rfl]
    by_cases hb0 : b = 0
    · simp [hb0, Nat.zero_testBit]
    · rw [if_neg hb0]
      have hlt2 : b / 2 < 2 ^ fuel := by
        have h2 : 2 ^ (fuel + 1) = 2 * 2 ^ fuel := by ring
        omega
      rw [ih (b / 2) hlt2, Finset.sum_range_succ']
      simp only [Nat.testBit_add_one]
      rw [mod_two_eq_toNat_testBit]
      cases b.testBit 0 <;> simp <;> omega

theorem count_eq_sum (b : Nat) (hb : b < U64) :
    count b = ∑ i ∈ Finset.range 64, (if b.testBit i then 1 else 0) :=
  countAux_eq_sum 64 b hb

theorem testBit_lt_64 {b : Nat} (hb : b < U64) {t : Nat}
    (ht : b.testBit t = true) : t < 64 := by
  by_contra hge
  have hlt : b < 2 ^ t := lt_of_lt_of_le hb (Nat.pow_le_pow_right (by omega) (by omega))
  rw [Nat.testBit_lt_two_pow hlt] at ht
  exact Bool.noConfusion ht

theorem count_le_64 (b : Nat) (hb : b < U64) : count b ≤ 64 := by
  rw [count_eq_sum b hb]
  calc ∑ i ∈ Finset.range 64, (if b.testBit i then 1 else 0)
      ≤ ∑ _i ∈ Finset.range 64, 1 :=
        Finset.sum_le_sum (fun i _ => by split <;> omega)
    _ = 64 := by simp

theorem count_pos_of_testBit {b : Nat} (hb : b < U64) {t : Nat}
    (ht : b.testBit t = true) : 1 ≤ count b := by
  have htlt : t < 64 := testBit_lt_64 hb ht
  rw [count_eq_sum b hb]
  have hle := Finset.single_le_sum (f := fun i => if b.testBit i then 1 else 0)
    (fun i _ => by positivity) (Finset.mem_range.mpr htlt)
  simp only [ht, if_true] at hle
  simpa using hle

theorem count_xor_two_pow {b : Nat} (hb : b < U64) {t : Nat}
    (ht : b.testBit t = true) :
    count (b ^^^ 2 ^ t) = count b - 1 := by
  have htlt : t < 64 := testBit_lt_64 hb ht
  have hblt : b ^^^ 2 ^ t < U64 :=
    Nat.xor_lt_two_pow hb (Nat.pow_lt_pow_right (by omega) htlt)
  rw [count_eq_sum b hb, count_eq_sum _ hblt]
  have hmem : t ∈ Finset.range 64 := Finset.mem_range.mpr htlt
  rw [← Finset.sum_erase_add _ _ hmem, ← Finset.sum_erase_add _ _ hmem]
  have herase : ∑ i ∈ (Finset.range 64).erase t, (if (b ^^^ 2 ^ t).testBit i then 1 else 0)
      = ∑ i ∈ (Finset.range 64).erase t, (if b.testBit i then 1 else 0) := by
    apply Finset.sum_congr rfl
    intro i hi
    have hne : t ≠ i := fun he => (Finset.ne_of_mem_erase hi) he.symm
    rw [Nat.testBit_xor, Nat.testBit_two_pow_of_ne hne]
    cases b.testBit i <;> rfl
  rw [herase, ht, Nat.testBit_xor, ht, Nat.testBit_two_pow_self]
  simp

end Seer

namespace Seer

/-! ### Carry-rippler step analysis

For a nonempty mask `m` with lowest set bit `2 ^ t`, one iterator step
`subset.wrapping_sub(board) & board` either adds the lowest mask bit (when
absent) or defers to the same step on the mask with that bit removed. -/

theorem testBit_ne_zero {x : Nat} {i : Nat} (h : x.testBit i = true) : x ≠ 0 := by
  intro h0
  rw [h0, Nat.zero_testBit] at h
  exact Bool.noConfusion h

theorem subset_trans {x y z : Nat} (hxy : x &&& y = x) (hyz : y &&& z = y) :
    x &&& z = x := by
  rw [land_eq_self_iff] at hxy hyz ⊢
  exact fun i hx => hyz i (hxy i hx)

theorem xor_two_pow_subset {m : Nat} {t : Nat} (ht : m.testBit t = true) :
    (m ^^^ 2 ^ t) &&& m = m ^^^ 2 ^ t := by
  rw [land_eq_self_iff]
  intro i hbit
  rcases eq_or_ne i t with rfl | hne
  · rw [Nat.testBit_xor, ht, Nat.testBit_two_pow_self] at hbit
    exact Bool.noConfusion hbit
  · rwa [Nat.testBit_xor, Nat.testBit_two_pow_of_ne (Ne.symm hne), Bool.xor_false] at hbit

theorem lor_two_pow_land {s m : Nat} {t : Nat} (hs : s &&& m = s)
    (ht : m.testBit t = true) : (s ||| 2 ^ t) &&& m = s ||| 2 ^ t := by
  rw [land_eq_self_iff] at hs ⊢
  intro i hbit
  rw [Nat.testBit_lor] at hbit
  rcases Bool.or_eq_true_iff.mp hbit with hb | hb
  · exact hs i hb
  · rw [Nat.testBit_two_pow] at hb
    have : t = i := by simpa using hb
    subst this
    exact ht

theorem lor_xor_two_pow_cancel {s : Nat} {t : Nat}
    (hst : s.testBit t = false) : (s ||| 2 ^ t) ^^^ 2 ^ t = s := by
  apply Nat.eq_of_testBit_eq
  intro i
  rw [Nat.testBit_xor, Nat.testBit_lor]
  rcases eq_or_ne i t with rfl | hne
  · rw [hst, Nat.testBit_two_pow_self]
    rfl
  · rw [Nat.testBit_two_pow_of_ne (Ne.symm hne)]
    cases s.testBit i <;> rfl

theorem subset_low_bits {s m : Nat} (hs : s &&& m = s) {t : Nat}
    (hlow : ∀ i, i < t → m.testBit i = false) :
    ∀ i, i < t → s.testBit i = false := by
  intro i hi
  cases hsi : s.testBit i
  · rfl
  · have := subset_testBit hs hsi
    rw [hlow i hi] at this
    exact Bool.noConfusion this

theorem powerSetSucc_lsb_mem (m : Nat) (hm : m < U64) (t : Nat)
    (ht : m.testBit t = true) (hlow : ∀ i, i < t → m.testBit i = false)
    (s : Nat) (hs : s &&& m = s) (hst : s.testBit t = true) :
    powerSetSucc m s = powerSetSucc (m ^^^ 2 ^ t) (s ^^^ 2 ^ t) := by
  have htlt : t < 64 := testBit_lt_64 hm ht
  have h2ts : 2 ^ t &&& s = 2 ^ t := by rw [Nat.two_pow_and, hst]; simp
  have h2tm : 2 ^ t &&& m = 2 ^ t := by rw [Nat.two_pow_and, ht]; simp
  obtain ⟨hsub_s, hle_s⟩ := sub_of_subset h2ts
  obtain ⟨hsub_m, hle_m⟩ := sub_of_subset h2tm
  have hD : wrappingSub s m = wrappingSub (s ^^^ 2 ^ t) (m ^^^ 2 ^ t) := by
    unfold wrappingSub
    rw [← hsub_s, ← hsub_m]
    congr 1
    rw [tsub_tsub_assoc (le_of_lt hm) hle_m, Nat.add_comm (U64 - m) (2 ^ t),
      ← Nat.add_assoc, Nat.sub_add_cancel hle_s]
  unfold powerSetSucc
  rw [hD]
  have hs1 : ∀ i, i < t + 1 → (s ^^^ 2 ^ t).testBit i = false := by
    intro i hi
    rw [Nat.testBit_xor]
    rcases Nat.lt_or_ge i t with hit | hit
    · rw [subset_low_bits hs hlow i hit, Nat.testBit_two_pow_of_ne (by omega)]
      rfl
    · have hit2 : i = t := by omega
      subst hit2
      rw [hst, Nat.testBit_two_pow_self]
      rfl
  have hm1 : ∀ i, i < t + 1 → (m ^^^ 2 ^ t).testBit i = false := by
    intro i hi
    rw [Nat.testBit_xor]
    rcases Nat.lt_or_ge i t with hit | hit
    · rw [hlow i hit, Nat.testBit_two_pow_of_ne (by omega)]
      rfl
    · have hit2 : i = t := by omega
      subst hit2
      rw [ht, Nat.testBit_two_pow_self]
      rfl
  have hdvd_s : 2 ^ (t + 1) ∣ (s ^^^ 2 ^ t) :=
    (Nat.dvd_of_mod_eq_zero (mod_two_pow_eq_zero_of_low_bits hs1))
  have hdvd_m : 2 ^ (t + 1) ∣ (m ^^^ 2 ^ t) :=
    (Nat.dvd_of_mod_eq_zero (mod_two_pow_eq_zero_of_low_bits hm1))
  have hdvd_U : 2 ^ (t + 1) ∣ U64 := by
    unfold U64
    exact Nat.pow_dvd_pow 2 (by omega)
  have hDmod : wrappingSub (s ^^^ 2 ^ t) (m ^^^ 2 ^ t) % 2 ^ (t + 1) = 0 := by
    unfold wrappingSub
    rw [Nat.mod_mod_of_dvd _ hdvd_U]
    exact Nat.mod_eq_zero_of_dvd
      (Nat.dvd_add hdvd_s (Nat.dvd_sub' hdvd_U hdvd_m))
  apply Nat.eq_of_testBit_eq
  intro i
  rw [Nat.testBit_land, Nat.testBit_land, Nat.testBit_xor]
  rcases Nat.lt_or_ge i (t + 1) with hi | hi
  · rw [testBit_false_of_mod_two_pow hDmod hi]
    rfl
  · rw [Nat.testBit_two_pow_of_ne (by omega : t ≠ i)]
    cases (m.testBit i) <;> rfl

end Seer

namespace Seer

theorem powerSetSucc_lsb_not_mem (m : Nat) (hm : m < U64) (t : Nat)
    (ht : m.testBit t = true) (hlow : ∀ i, i < t → m.testBit i = false)
    (s : Nat) (hs : s &&& m = s) (hst : s.testBit t = false) :
    powerSetSucc m s = s ||| 2 ^ t := by
  have htlt : t < 64 := testBit_lt_64 hm ht
  have hsle : s ≤ m := (sub_of_subset hs).2
  have hesub : m - s = m ^^^ s := (sub_of_subset hs).1
  have hsm : s ≠ m := by
    intro he
    rw [he, ht] at hst
    exact Bool.noConfusion hst
  have hslt : s < m := lt_of_le_of_ne hsle hsm
  have hepos : 1 ≤ m - s := by
    have := Nat.sub_pos_of_lt hslt
    omega
  have hebit : (m - s).testBit t = true := by
    rw [hesub, Nat.testBit_xor, ht, hst]
    rfl
  have h2te : 2 ^ t &&& (m - s) = 2 ^ t := by
    rw [Nat.two_pow_and, hebit]
    simp
  obtain ⟨hesub2, hele2⟩ := sub_of_subset h2te
  have helow : ∀ i, i < t → (m - s).testBit i = false := by
    intro i hi
    rw [hesub, Nat.testBit_xor, hlow i hi, subset_low_bits hs hlow i hi]
    rfl
  have hws : wrappingSub s m = U64 - (m - s) := by
    unfold wrappingSub
    rw [tsub_tsub_assoc (le_of_lt hm) hsle, Nat.add_comm (U64 - m) s]
    exact Nat.mod_eq_of_lt
      (calc s + (U64 - m) < m + (U64 - m) := Nat.add_lt_add_right hslt _
        _ = U64 := Nat.add_sub_cancel' (le_of_lt hm))
  have hcomp : U64 - (m - s) = (U64 - 1) ^^^ ((m - s) - 1) := by
    have h1 : U64 - (m - s) = (U64 - 1) - ((m - s) - 1) := by
      rw [Nat.sub_sub, Nat.add_sub_cancel' hepos]
    rw [h1, all_ones_sub ((m - s) - 1)
      (lt_of_le_of_lt (Nat.sub_le _ _) (lt_of_le_of_lt (Nat.sub_le m s) hm))]
  have hdisj : ((m - s) ^^^ 2 ^ t) &&& (2 ^ t - 1) = 0 := by
    apply Nat.eq_of_testBit_eq
    intro i
    rw [Nat.testBit_land, Nat.zero_testBit, Nat.testBit_two_pow_sub_one]
    rcases Nat.lt_or_ge i t with hi | hi
    · rw [Nat.testBit_xor, helow i hi, Nat.testBit_two_pow_of_ne (by omega : t ≠ i)]
      rfl
    · rw [decide_eq_false (by omega : ¬ i < t), Bool.and_false]
  have hem1 : (m - s) - 1 = ((m - s) ^^^ 2 ^ t) ||| (2 ^ t - 1) :=
    calc (m - s) - 1
        = ((m - s) - 2 ^ t + 2 ^ t) - 1 := by rw [Nat.sub_add_cancel hele2]
      _ = ((m - s) - 2 ^ t) + (2 ^ t - 1) := by
          rw [Nat.add_sub_assoc (Nat.two_pow_pos t) _]
      _ = ((m - s) ^^^ 2 ^ t) + (2 ^ t - 1) := by rw [hesub2]
      _ = ((m - s) ^^^ 2 ^ t) ||| (2 ^ t - 1) := disjoint_add_eq_lor _ _ hdisj
  have hall : ∀ j : Nat, (U64 - 1).testBit j = decide (j < 64) := by
    intro j
    have h64 : U64 - 1 = 2 ^ 64 - 1 := rfl
    rw [h64, Nat.testBit_two_pow_sub_one]
  unfold powerSetSucc
  rw [hws, hcomp, hem1]
  apply Nat.eq_of_testBit_eq
  intro i
  simp only [Nat.testBit_land, Nat.testBit_lor, Nat.testBit_xor, hall,
    Nat.testBit_two_pow_sub_one, Nat.testBit_two_pow, hesub]
  rcases Nat.lt_trichotomy i t with hi | hi | hi
  · rw [subset_low_bits hs hlow i hi, hlow i hi,
      decide_eq_true (show i < t from hi),
      decide_eq_true (show i < 64 from by omega),
      decide_eq_false (show ¬ t = i from by omega)]
    rfl
  · subst hi
    rw [ht, hst, decide_eq_true (show i < 64 from htlt),
      decide_eq_false (show ¬ i < i from by omega),
      decide_eq_true (show i = i from rfl)]
    rfl
  · have hti : ¬ t = i := by omega
    have hit : ¬ i < t := by omega
    by_cases hi64 : i < 64
    · rw [decide_eq_false hit, decide_eq_true hi64, decide_eq_false hti]
      cases hmi : m.testBit i
      · have hsi : s.testBit i = false := by
          cases hsi2 : s.testBit i
          · rfl
          · have hcontra := subset_testBit hs hsi2
            rw [hmi] at hcontra
            exact Bool.noConfusion hcontra
        rw [hsi]
        rfl
      · cases s.testBit i <;> rfl
    · have hmi : m.testBit i = false := by
        cases hmi2 : m.testBit i
        · rfl
        · exact absurd (testBit_lt_64 hm hmi2) (by omega)
      have hsi : s.testBit i = false := by
        cases hsi2 : s.testBit i
        · rfl
        · have hcontra := subset_testBit hs hsi2
          rw [hmi] at hcontra
          exact Bool.noConfusion hcontra
      rw [decide_eq_false hit, decide_eq_false (by omega : ¬ i < 64),
        decide_eq_false hti, hmi, hsi]
      rfl

theorem powerSetSucc_land (m s : Nat) :
    powerSetSucc m s &&& m = powerSetSucc m s := by
  unfold powerSetSucc
  rw [Nat.and_assoc, Nat.and_self]

end Seer

namespace Seer

theorem powerSetAux_cons (m fuel s : Nat) :
    powerSetAux m (fuel + 1) s
      = s :: (if isEmpty (powerSetSucc m s) then []
          else powerSetAux m fuel (powerSetSucc m s)) := rfl

theorem powerSetAux_empty (f : Nat) : powerSetAux EMPTY (f + 1) EMPTY = [EMPTY] := by
  rw [powerSetAux_cons]
  have h0 : powerSetSucc EMPTY EMPTY = 0 := by
    simp [powerSetSucc, wrappingSub, EMPTY, Nat.and_zero]
  rw [h0]
  rfl

theorem powerSetAux_interleave (m : Nat) (hm : m < U64) (t : Nat)
    (ht : m.testBit t = true) (hlow : ∀ i, i < t → m.testBit i = false) :
    ∀ (f s : Nat), s &&& (m ^^^ 2 ^ t) = s →
      powerSetAux m (2 * f) s
        = (powerSetAux (m ^^^ 2 ^ t) f s).flatMap (fun u => [u, u ||| 2 ^ t]) := by
  intro f
  induction f with
  | zero =>
    intro s hs
    rfl
  | succ f ih =>
    intro s hs
    have hm2m : (m ^^^ 2 ^ t) &&& m = m ^^^ 2 ^ t := xor_two_pow_subset ht
    have hsm : s &&& m = s := subset_trans hs hm2m
    have hm2t : (m ^^^ 2 ^ t).testBit t = false := by
      rw [Nat.testBit_xor, ht, Nat.testBit_two_pow_self]
      rfl
    have hst : s.testBit t = false := by
      cases hst2 : s.testBit t
      · rfl
      · have hcontra := subset_testBit hs hst2
        rw [hm2t] at hcontra
        exact Bool.noConfusion hcontra
    have hsucc1 : powerSetSucc m s = s ||| 2 ^ t :=
      powerSetSucc_lsb_not_mem m hm t ht hlow s hsm hst
    have hs2 : (s ||| 2 ^ t) &&& m = s ||| 2 ^ t := lor_two_pow_land hsm ht
    have hs2t : (s ||| 2 ^ t).testBit t = true := by
      rw [Nat.testBit_lor, Nat.testBit_two_pow_self, Bool.or_true]
    have hsucc2 : powerSetSucc m (s ||| 2 ^ t) = powerSetSucc (m ^^^ 2 ^ t) s := by
      rw [powerSetSucc_lsb_mem m hm t ht hlow _ hs2 hs2t, lor_xor_two_pow_cancel hst]
    have hne1 : ¬ (isEmpty (powerSetSucc m s) = true) := by
      rw [hsucc1]
      simp only [isEmpty, EMPTY, beq_iff_eq]
      exact testBit_ne_zero hs2t
    rw [show 2 * (f + 1) = 2 * f + 1 + 1 from by ring, powerSetAux_cons,
      if_neg hne1, hsucc1, powerSetAux_cons, hsucc2, powerSetAux_cons]
    by_cases hemp : isEmpty (powerSetSucc (m ^^^ 2 ^ t) s) = true
    · rw [if_pos hemp, if_pos hemp]
      rfl
    · rw [if_neg hemp, if_neg hemp,
        ih (powerSetSucc (m ^^^ 2 ^ t) s) (powerSetSucc_land (m ^^^ 2 ^ t) s)]
      rfl

theorem flatMap_pair_length (l : Nat) (L : List Nat) :
    (L.flatMap (fun u => [u, u ||| l])).length = 2 * L.length := by
  induction L with
  | nil => rfl
  | cons a L ihL =>
    simp only [List.flatMap_cons, List.length_append, List.length_cons, ihL]
    simp
    omega

theorem flatMap_pair_mem (t : Nat) (L : List Nat)
    (hL : ∀ u ∈ L, u.testBit t = false) (x : Nat) :
    x ∈ L.flatMap (fun u => [u, u ||| 2 ^ t])
      ↔ (x.testBit t = false ∧ x ∈ L) ∨ (x.testBit t = true ∧ x ^^^ 2 ^ t ∈ L) := by
  induction L with
  | nil => simp
  | cons a L ihL =>
    have ha : a.testBit t = false := hL a (List.mem_cons_self a L)
    have hL2 : ∀ u ∈ L, u.testBit t = false :=
      fun u hu => hL u (List.mem_cons_of_mem a hu)
    have halor : (a ||| 2 ^ t).testBit t = true := by
      rw [Nat.testBit_lor, Nat.testBit_two_pow_self, Bool.or_true]
    have hacancel : (a ||| 2 ^ t) ^^^ 2 ^ t = a := lor_xor_two_pow_cancel ha
    simp only [List.flatMap_cons, List.mem_append, List.mem_cons,
      List.not_mem_nil, or_false, ihL hL2]
    constructor
    · rintro ((rfl | rfl) | h)
      · exact Or.inl ⟨ha, Or.inl rfl⟩
      · exact Or.inr ⟨halor, Or.inl hacancel⟩
      · rcases h with ⟨hbit, hmem⟩ | ⟨hbit, hmem⟩
        · exact Or.inl ⟨hbit, Or.inr hmem⟩
        · exact Or.inr ⟨hbit, Or.inr hmem⟩
    · rintro (⟨hbit, rfl | hmem⟩ | ⟨hbit, hy⟩)
      · exact Or.inl (Or.inl rfl)
      · exact Or.inr (Or.inl ⟨hbit, hmem⟩)
      · rcases hy with hy | hmem
        · left
          right
          have hx : x = a ||| 2 ^ t := by
            have h1 : x ^^^ 2 ^ t ^^^ 2 ^ t = x := Nat.xor_cancel_right _ _
            rw [hy] at h1
            rw [← h1]
            have hdisj : a &&& 2 ^ t = 0 := by
              rw [Nat.and_two_pow, ha]
              simp
            rw [Nat.xor_comm a (2 ^ t), ← disjoint_xor_eq_lor a (2 ^ t) hdisj,
              Nat.xor_comm a (2 ^ t)]
          exact hx
        · exact Or.inr (Or.inr ⟨hbit, hmem⟩)

theorem flatMap_pair_nodup (t : Nat) (L : List Nat)
    (hL : ∀ u ∈ L, u.testBit t = false) (hnd : L.Nodup) :
    (L.flatMap (fun u => [u, u ||| 2 ^ t])).Nodup := by
  induction L with
  | nil => simp
  | cons a L ihL =>
    obtain ⟨hna, hndL⟩ := List.nodup_cons.mp hnd
    have ha : a.testBit t = false := hL a (List.mem_cons_self a L)
    have hL2 : ∀ u ∈ L, u.testBit t = false :=
      fun u hu => hL u (List.mem_cons_of_mem a hu)
    have halor : (a ||| 2 ^ t).testBit t = true := by
      rw [Nat.testBit_lor, Nat.testBit_two_pow_self, Bool.or_true]
    simp only [List.flatMap_cons]
    rw [List.nodup_append]
    refine ⟨?_, ihL hL2 hndL, ?_⟩
    · rw [List.nodup_cons]
      refine ⟨?_, by simp⟩
      intro he
      rw [List.mem_cons] at he
      rcases he with he | he
      · rw [he, halor] at ha
        exact Bool.noConfusion ha
      · exact List.not_mem_nil a he
    · intro x hx hxf
      rw [flatMap_pair_mem t L hL2 x] at hxf
      rw [List.mem_cons] at hx
      rcases hx with rfl | hx
      · rcases hxf with ⟨_, hmem⟩ | ⟨hbit, _⟩
        · exact hna hmem
        · rw [hbit] at ha
          exact Bool.noConfusion ha
      · rw [List.mem_cons] at hx
        rcases hx with rfl | hx
        · rcases hxf with ⟨hbit, _⟩ | ⟨_, hmem⟩
          · rw [halor] at hbit
            exact Bool.noConfusion hbit
          · rw [lor_xor_two_pow_cancel ha] at hmem
            exact hna hmem
        · exact List.not_mem_nil x hx

end Seer

namespace Seer

theorem powerSetAux_orbit : ∀ m : Nat, m < U64 → ∀ k : Nat, count m ≤ k → k ≤ 64 →
    (powerSetAux m (2 ^ k) EMPTY).length = 2 ^ count m
    ∧ (∀ x, x ∈ powerSetAux m (2 ^ k) EMPTY ↔ x &&& m = x)
    ∧ (powerSetAux m (2 ^ k) EMPTY).Nodup := by
  intro m
  induction m using Nat.strong_induction_on with
  | _ m ih =>
    intro hm k hk1 hk2
    rcases Nat.eq_zero_or_pos m with hm0 | hmpos
    · subst hm0
      have hc : count 0 = 0 := rfl
      obtain ⟨f, hf⟩ : ∃ f, 2 ^ k = f + 1 :=
        ⟨2 ^ k - 1, by have := Nat.two_pow_pos k; omega⟩
      rw [hf]
      have he : powerSetAux 0 (f + 1) EMPTY = [EMPTY] := powerSetAux_empty f
      rw [he, hc]
      refine ⟨rfl, ?_, by simp⟩
      intro x
      simp only [List.mem_cons, List.not_mem_nil, or_false, EMPTY, Nat.and_zero]
      exact ⟨fun h => h.symm, fun h => h.symm⟩
    · have hmne : m ≠ 0 := by omega
      obtain ⟨ht, hlow⟩ := trailingZeros_spec m hmne hm
      set t0 := trailingZeros m with ht0def
      have htlt : t0 < 64 := testBit_lt_64 hm ht
      have hm2m : (m ^^^ 2 ^ t0) &&& m = m ^^^ 2 ^ t0 := xor_two_pow_subset ht
      have h2tm : 2 ^ t0 &&& m = 2 ^ t0 := by rw [Nat.two_pow_and, ht]; simp
      obtain ⟨hsubm, hlem⟩ := sub_of_subset h2tm
      have hm2lt : m ^^^ 2 ^ t0 < m := by
        rw [← hsubm]
        have := Nat.two_pow_pos t0
        omega
      have hm2ltU : m ^^^ 2 ^ t0 < U64 := lt_trans hm2lt hm
      have hcount : count (m ^^^ 2 ^ t0) = count m - 1 := count_xor_two_pow hm ht
      have hcpos : 1 ≤ count m := count_pos_of_testBit hm ht
      have hkpos : 1 ≤ k := le_trans hcpos hk1
      obtain ⟨k2, rfl⟩ : ∃ k2, k = k2 + 1 := ⟨k - 1, by omega⟩
      have hfuel : (2 : Nat) ^ (k2 + 1) = 2 * 2 ^ k2 := by rw [pow_succ]; ring
      have hinter := powerSetAux_interleave m hm t0 ht hlow (2 ^ k2) EMPTY
        (by simp [EMPTY])
      rw [hfuel, hinter]
      obtain ⟨ihlen, ihmem, ihnodup⟩ :=
        ih (m ^^^ 2 ^ t0) hm2lt hm2ltU k2 (by omega) (by omega)
      have hm2t : (m ^^^ 2 ^ t0).testBit t0 = false := by
        rw [Nat.testBit_xor, ht, Nat.testBit_two_pow_self]
        rfl
      have hbits : ∀ u ∈ powerSetAux (m ^^^ 2 ^ t0) (2 ^ k2) EMPTY,
          u.testBit t0 = false := by
        intro u hu
        have hsub := (ihmem u).mp hu
        cases hub : u.testBit t0
        · rfl
        · have hcontra := subset_testBit hsub hub
          rw [hm2t] at hcontra
          exact Bool.noConfusion hcontra
      refine ⟨?_, ?_, flatMap_pair_nodup t0 _ hbits ihnodup⟩
      · rw [flatMap_pair_length, ihlen, hcount]
        obtain ⟨c2, hc2⟩ : ∃ c2, count m = c2 + 1 := ⟨count m - 1, by omega⟩
        rw [hc2]
        rw [show c2 + 1 - 1 = c2 from by omega, pow_succ]
        ring
      · intro x
        rw [flatMap_pair_mem t0 _ hbits x]
        constructor
        · rintro (⟨hbit, hmem⟩ | ⟨hbit, hmem⟩)
          · exact subset_trans ((ihmem x).mp hmem) hm2m
          · have hysub := (ihmem _).mp hmem
            rw [land_eq_self_iff]
            intro i hxi
            rcases eq_or_ne i t0 with rfl | hne
            · exact ht
            · have hyi : (x ^^^ 2 ^ t0).testBit i = x.testBit i := by
                rw [Nat.testBit_xor, Nat.testBit_two_pow_of_ne (Ne.symm hne),
                  Bool.xor_false]
              have hmi := subset_testBit hysub (by rw [hyi]; exact hxi)
              exact subset_testBit hm2m hmi
        · intro hsub
          cases hbit : x.testBit t0
          · left
            refine ⟨rfl, (ihmem x).mpr ?_⟩
            rw [land_eq_self_iff]
            intro i hxi
            rcases eq_or_ne i t0 with rfl | hne
            · rw [hxi] at hbit
              exact Bool.noConfusion hbit
            · rw [Nat.testBit_xor, Nat.testBit_two_pow_of_ne (Ne.symm hne),
                Bool.xor_false]
              exact subset_testBit hsub hxi
          · right
            refine ⟨rfl, (ihmem _).mpr ?_⟩
            rw [land_eq_self_iff]
            intro i hyi
            rcases eq_or_ne i t0 with rfl | hne
            · rw [Nat.testBit_xor, hbit, Nat.testBit_two_pow_self] at hyi
              exact Bool.noConfusion hyi
            · rw [Nat.testBit_xor, Nat.testBit_two_pow_of_ne (Ne.symm hne),
                Bool.xor_false] at hyi
              rw [Nat.testBit_xor, Nat.testBit_two_pow_of_ne (Ne.symm hne),
                Bool.xor_false]
              exact subset_testBit hsub hyi

end Seer

namespace Seer

/-- C6: `iter_power_set(m)` yields exactly `2 ^ count(m)` bitboards; every
yielded board is a subset of `m` and every subset of `m` is yielded exactly
once (its multiplicity in the yielded list is 1, anything else has
multiplicity 0); for the empty mask the iterator yields exactly the empty
bitboard, once. -/
theorem c6_iter_power_set (m : Bitboard) (hm : m < U64) :
    (iterPowerSet m).length = 2 ^ count m
    ∧ (∀ s : Bitboard, List.count s (iterPowerSet m) = if s &&& m = s then 1 else 0)
    ∧ iterPowerSet EMPTY = [EMPTY] := by
  obtain ⟨hlen, hmem, hnodup⟩ :=
    powerSetAux_orbit m hm 64 (count_le_64 m hm) (le_refl 64)
  have hiter : iterPowerSet m = powerSetAux m (2 ^ 64) EMPTY := rfl
  rw [hiter]
  refine ⟨hlen, ?_, ?_⟩
  · intro s
    by_cases hsub : s &&& m = s
    · rw [if_pos hsub]
      exact List.count_eq_one_of_mem hnodup ((hmem s).mpr hsub)
    · rw [if_neg hsub]
      exact List.count_eq_zero.mpr (fun hin => hsub ((hmem s).mp hin))
  · unfold iterPowerSet
    rw [show U64 = (U64 - 1) + 1 from by unfold U64; norm_num]
    exact powerSetAux_empty (U64 - 1)

theorem c6_witness :
    (5 : Nat) < U64
    ∧ ((iterPowerSet 5).length = 2 ^ count 5
      ∧ (∀ s : Bitboard, List.count s (iterPowerSet 5) = if s &&& 5 = s then 1 else 0)
      ∧ iterPowerSet EMPTY = [EMPTY]) :=
  ⟨by decide, c6_iter_power_set 5 (by decide)⟩

end Seer

namespace Seer

/-! ### XOR-fold toolkit for the Zobrist hash -/

theorem foldl_xor_acc_gen {α : Type} (f : α → Nat) :
    ∀ (L : List α) (acc : Nat),
      L.foldl (fun h a => h ^^^ f a) acc
        = acc ^^^ L.foldl (fun h a => h ^^^ f a) 0 := by
  intro L
  induction L with
  | nil =>
    intro acc
    simp
  | cons a L ih =>
    intro acc
    rw [List.foldl_cons, List.foldl_cons, ih (acc ^^^ f a), ih (0 ^^^ f a),
      Nat.zero_xor, Nat.xor_assoc]

theorem foldl_xor_congr {α : Type} (f g : α → Nat) :
    ∀ (L : List α), (∀ a ∈ L, f a = g a) →
      L.foldl (fun h a => h ^^^ f a) 0 = L.foldl (fun h a => h ^^^ g a) 0 := by
  intro L
  induction L with
  | nil =>
    intro _
    rfl
  | cons a L ih =>
    intro h
    rw [List.foldl_cons, List.foldl_cons, foldl_xor_acc_gen f, foldl_xor_acc_gen g,
      ih (fun x hx => h x (List.mem_cons_of_mem a hx)),
      h a (List.mem_cons_self a L)]

theorem foldl_xor_pointwise {α : Type} (f g d : α → Nat) :
    ∀ (L : List α), (∀ a ∈ L, f a = g a ^^^ d a) →
      L.foldl (fun h a => h ^^^ f a) 0
        = L.foldl (fun h a => h ^^^ g a) 0 ^^^ L.foldl (fun h a => h ^^^ d a) 0 := by
  intro L
  induction L with
  | nil =>
    intro _
    simp
  | cons a L ih =>
    intro h
    rw [List.foldl_cons, List.foldl_cons, List.foldl_cons,
      foldl_xor_acc_gen f, foldl_xor_acc_gen g, foldl_xor_acc_gen d,
      ih (fun x hx => h x (List.mem_cons_of_mem a hx)),
      h a (List.mem_cons_self a L)]
    simp only [Nat.zero_xor]
    rw [Nat.xor_assoc, Nat.xor_assoc]
    congr 1
    exact xor_left_comm _ _ _

theorem foldl_xor_zero {α : Type} (f : α → Nat) :
    ∀ L : List α, (∀ a ∈ L, f a = 0) → L.foldl (fun h a => h ^^^ f a) 0 = 0 := by
  intro L
  induction L with
  | nil =>
    intro _
    rfl
  | cons a L ih =>
    intro h
    rw [List.foldl_cons, foldl_xor_acc_gen f, h a (List.mem_cons_self a L),
      Nat.zero_xor, Nat.zero_xor]
    exact ih (fun q hq => h q (List.mem_cons_of_mem a hq))

theorem foldl_xor_single {α : Type} (f : α → Nat) :
    ∀ (L : List α), L.Nodup → ∀ x ∈ L, (∀ a ∈ L, a ≠ x → f a = 0) →
      L.foldl (fun h a => h ^^^ f a) 0 = f x := by
  intro L
  induction L with
  | nil =>
    intro _ x hx
    exact absurd hx (List.not_mem_nil x)
  | cons a L ih =>
    intro hnd x hx hz
    obtain ⟨hna, hndL⟩ := List.nodup_cons.mp hnd
    rw [List.foldl_cons, foldl_xor_acc_gen f, Nat.zero_xor]
    rcases List.mem_cons.mp hx with rfl | hxL
    · have hall : ∀ a ∈ L, f a = 0 := by
        intro a ha
        exact hz a (List.mem_cons_of_mem x ha) (fun he => hna (he ▸ ha))
      rw [foldl_xor_zero f L hall, Nat.xor_zero]
    · rw [hz a (List.mem_cons_self a L) (fun he => hna (he ▸ hxL)), Nat.zero_xor]
      exact ih hndL x hxL (fun q hq hne => hz q (List.mem_cons_of_mem a hq) hne)

end Seer

namespace Seer

theorem xorBits_xor_two_pow (k : Nat → Nat) (x j : Nat) (hj : j < 64) :
    xorBits k (x ^^^ 2 ^ j) = xorBits k x ^^^ k j := by
  have hpt : ∀ i ∈ List.range 64,
      (if (x ^^^ 2 ^ j).testBit i then k i else 0)
        = (if x.testBit i then k i else 0) ^^^ (if i = j then k j else 0) := by
    intro i _
    rcases eq_or_ne i j with rfl | hne
    · rw [Nat.testBit_xor, Nat.testBit_two_pow_self, if_pos rfl]
      cases hx : x.testBit i <;> simp
    · rw [Nat.testBit_xor, Nat.testBit_two_pow_of_ne (Ne.symm hne), Bool.xor_false,
        if_neg hne, Nat.xor_zero]
  have hsingle : (List.range 64).foldl
      (fun h i => h ^^^ (if i = j then k j else 0)) 0 = k j := by
    rw [foldl_xor_single (fun i => if i = j then k j else 0) (List.range 64)
      (List.nodup_range 64) j (List.mem_range.mpr hj)
      (fun a _ hne => if_neg hne), if_pos rfl]
  unfold xorBits
  rw [foldl_xor_pointwise _ _ _ (List.range 64) hpt, hsingle]

theorem xorBits_xor_ite (k : Nat → Nat) (x : Nat) (cond : Prop) [Decidable cond]
    (j : Nat) (hj : j < 64) :
    xorBits k (x ^^^ (if cond then 2 ^ j else 0))
      = xorBits k x ^^^ (if cond then k j else 0) := by
  by_cases h : cond
  · rw [if_pos h, if_pos h, xorBits_xor_two_pow k x j hj]
  · rw [if_neg h, if_neg h, Nat.xor_zero, Nat.xor_zero]

theorem xorBits_toggle_square (K : ZobristKeys) (c : Color) (p : Piece) (x : Nat)
    (sq : Square) (cond : Prop) [Decidable cond] :
    xorBits (squareKey K c p) (x ^^^ (if cond then intoBitboard sq else 0))
      = xorBits (squareKey K c p) x ^^^ (if cond then K.pieceKey c p sq else 0) := by
  rw [intoBitboard_two_pow, xorBits_xor_ite (squareKey K c p) x cond sq.val sq.isLt]
  congr 1
  by_cases h : cond
  · rw [if_pos h, if_pos h]
    unfold squareKey
    rw [dif_pos sq.isLt]
  · rw [if_neg h, if_neg h]

theorem foldl_xor_ite_single {α : Type} [DecidableEq α] (L : List α)
    (hnd : L.Nodup) (x : α) (hx : x ∈ L) (v : α → Nat) :
    L.foldl (fun h a => h ^^^ (if a = x then v a else 0)) 0 = v x := by
  rw [foldl_xor_single _ L hnd x hx (fun a _ hne => if_neg hne), if_pos rfl]

theorem foldl_xor_ite_and_single {α : Type} [DecidableEq α] (C : Prop) [Decidable C]
    (L : List α) (hnd : L.Nodup) (x : α) (hx : x ∈ L) (v : α → Nat) :
    L.foldl (fun h a => h ^^^ (if C ∧ a = x then v a else 0)) 0
      = if C then v x else 0 := by
  by_cases hC : C
  · rw [foldl_xor_single _ L hnd x hx
      (fun a _ hne => if_neg (fun hh => hne hh.2)), if_pos ⟨hC, rfl⟩, if_pos hC]
  · rw [if_neg hC, foldl_xor_zero _ L (fun a _ => if_neg (fun hh => hC hh.1))]

theorem pieces_nodup : PIECES.Nodup := by decide

theorem colors_nodup : COLORS.Nodup := by decide

theorem mem_pieces (p : Piece) : p ∈ PIECES := by cases p <;> decide

theorem mem_colors (c : Color) : c ∈ COLORS := by cases c <;> decide

end Seer

namespace Seer

theorem hashFromScratch_play (K : ZobristKeys) (b b2 : ChessBoard) (m : Move)
    (mp : Piece) (captured : Option Piece)
    (hocc : ∀ p c, occupancy b2 p c
        = occupancy b p c
          ^^^ playToggles b.side m mp (m.promotion.getD mp) captured p c)
    (hside : b2.side = colorNot b.side) :
    hashFromScratch K b2
      = hashFromScratch K b ^^^ playZobristDelta K b b2 m mp captured := by
  have hsif : (if b2.side = Color.Black then K.blackToMove else 0)
      = (if b.side = Color.Black then K.blackToMove else 0) ^^^ K.blackToMove := by
    rw [hside]
    cases b.side <;> simp [colorNot]
  cases captured with
  | none =>
    have hcp : ∀ c p, colorPieceHash K b2 c p
        = colorPieceHash K b c p
          ^^^ ((if c = b.side ∧ p = mp then K.pieceKey c p m.start else 0)
            ^^^ (if c = b.side ∧ p = m.promotion.getD mp
                then K.pieceKey c p m.destination else 0)) := by
      intro c p
      unfold colorPieceHash
      rw [hocc p c]
      unfold playToggles
      rw [Nat.xor_zero, ← Nat.xor_assoc,
        xorBits_toggle_square K c p _ m.destination _,
        xorBits_toggle_square K c p _ m.start _, Nat.xor_assoc]
    have hinner : ∀ c,
        PIECES.foldl (fun h2 p => h2 ^^^ colorPieceHash K b2 c p) 0
          = PIECES.foldl (fun h2 p => h2 ^^^ colorPieceHash K b c p) 0
            ^^^ ((if c = b.side then K.pieceKey c mp m.start else 0)
              ^^^ (if c = b.side
                  then K.pieceKey c (m.promotion.getD mp) m.destination else 0)) := by
      intro c
      rw [foldl_xor_pointwise _ _ _ PIECES (fun p _ => hcp c p)]
      congr 1
      rw [foldl_xor_pointwise _
        (fun p => if c = b.side ∧ p = mp then K.pieceKey c p m.start else 0)
        (fun p => if c = b.side ∧ p = m.promotion.getD mp
            then K.pieceKey c p m.destination else 0) PIECES (fun p _ => rfl)]
      rw [foldl_xor_ite_and_single (c = b.side) PIECES pieces_nodup mp
        (mem_pieces mp) (fun p => K.pieceKey c p m.start)]
      rw [foldl_xor_ite_and_single (c = b.side) PIECES pieces_nodup
        (m.promotion.getD mp) (mem_pieces _)
        (fun p => K.pieceKey c p m.destination)]
    have hpieces : piecesHash K b2 = piecesHash K b
        ^^^ (K.pieceKey b.side mp m.start
          ^^^ K.pieceKey b.side (m.promotion.getD mp) m.destination) := by
      unfold piecesHash
      rw [foldl_xor_pointwise _ _ _ COLORS (fun c _ => hinner c)]
      congr 1
      rw [foldl_xor_pointwise _
        (fun c => if c = b.side then K.pieceKey c mp m.start else 0)
        (fun c => if c = b.side
            then K.pieceKey c (m.promotion.getD mp) m.destination else 0)
        COLORS (fun c _ => rfl)]
      rw [foldl_xor_ite_single COLORS colors_nodup b.side (mem_colors _)
        (fun c => K.pieceKey c mp m.start)]
      rw [foldl_xor_ite_single COLORS colors_nodup b.side (mem_colors _)
        (fun c => K.pieceKey c (m.promotion.getD mp) m.destination)]
    unfold hashFromScratch playZobristDelta
    rw [hpieces, hsif]
    simp only [Nat.xor_zero]
    simp [Nat.xor_assoc, Nat.xor_comm, xor_left_comm, Nat.xor_self,
      Nat.xor_cancel_left, Nat.xor_cancel_right, Nat.xor_zero, Nat.zero_xor]
  | some cp =>
    have hcp : ∀ c p, colorPieceHash K b2 c p
        = colorPieceHash K b c p
          ^^^ ((if c = b.side ∧ p = mp then K.pieceKey c p m.start else 0)
            ^^^ (if c = b.side ∧ p = m.promotion.getD mp
                then K.pieceKey c p m.destination else 0)
            ^^^ (if c = colorNot b.side ∧ p = cp
                then K.pieceKey c p m.destination else 0)) := by
      intro c p
      unfold colorPieceHash
      rw [hocc p c]
      unfold playToggles
      rw [← Nat.xor_assoc, ← Nat.xor_assoc,
        xorBits_toggle_square K c p _ m.destination _,
        xorBits_toggle_square K c p _ m.destination _,
        xorBits_toggle_square K c p _ m.start _]
      simp only [Nat.xor_assoc]
    have hinner : ∀ c,
        PIECES.foldl (fun h2 p => h2 ^^^ colorPieceHash K b2 c p) 0
          = PIECES.foldl (fun h2 p => h2 ^^^ colorPieceHash K b c p) 0
            ^^^ ((if c = b.side then K.pieceKey c mp m.start else 0)
              ^^^ (if c = b.side
                  then K.pieceKey c (m.promotion.getD mp) m.destination else 0)
              ^^^ (if c = colorNot b.side
                  then K.pieceKey c cp m.destination else 0)) := by
      intro c
      rw [foldl_xor_pointwise _ _ _ PIECES (fun p _ => hcp c p)]
      congr 1
      rw [foldl_xor_pointwise _
        (fun p => (if c = b.side ∧ p = mp then K.pieceKey c p m.start else 0)
          ^^^ (if c = b.side ∧ p = m.promotion.getD mp
              then K.pieceKey c p m.destination else 0))
        (fun p => if c = colorNot b.side ∧ p = cp
            then K.pieceKey c p m.destination else 0) PIECES (fun p _ => rfl)]
      rw [foldl_xor_pointwise _
        (fun p => if c = b.side ∧ p = mp then K.pieceKey c p m.start else 0)
        (fun p => if c = b.side ∧ p = m.promotion.getD mp
            then K.pieceKey c p m.destination else 0) PIECES (fun p _ => rfl)]
      rw [foldl_xor_ite_and_single (c = b.side) PIECES pieces_nodup mp
        (mem_pieces mp) (fun p => K.pieceKey c p m.start)]
      rw [foldl_xor_ite_and_single (c = b.side) PIECES pieces_nodup
        (m.promotion.getD mp) (mem_pieces _)
        (fun p => K.pieceKey c p m.destination)]
      rw [foldl_xor_ite_and_single (c = colorNot b.side) PIECES pieces_nodup cp
        (mem_pieces cp) (fun p => K.pieceKey c p m.destination)]
    have hpieces : piecesHash K b2 = piecesHash K b
        ^^^ (K.pieceKey b.side mp m.start
          ^^^ K.pieceKey b.side (m.promotion.getD mp) m.destination
          ^^^ K.pieceKey (colorNot b.side) cp m.destination) := by
      unfold piecesHash
      rw [foldl_xor_pointwise _ _ _ COLORS (fun c _ => hinner c)]
      congr 1
      rw [foldl_xor_pointwise _
        (fun c => (if c = b.side then K.pieceKey c mp m.start else 0)
          ^^^ (if c = b.side
              then K.pieceKey c (m.promotion.getD mp) m.destination else 0))
        (fun c => if c = colorNot b.side
            then K.pieceKey c cp m.destination else 0) COLORS (fun c _ => rfl)]
      rw [foldl_xor_pointwise _
        (fun c => if c = b.side then K.pieceKey c mp m.start else 0)
        (fun c => if c = b.side
            then K.pieceKey c (m.promotion.getD mp) m.destination else 0)
        COLORS (fun c _ => rfl)]
      rw [foldl_xor_ite_single COLORS colors_nodup b.side (mem_colors _)
        (fun c => K.pieceKey c mp m.start)]
      rw [foldl_xor_ite_single COLORS colors_nodup b.side (mem_colors _)
        (fun c => K.pieceKey c (m.promotion.getD mp) m.destination)]
      rw [foldl_xor_ite_single COLORS colors_nodup (colorNot b.side) (mem_colors _)
        (fun c => K.pieceKey c cp m.destination)]
    unfold hashFromScratch playZobristDelta
    rw [hpieces, hsif]
    simp [Nat.xor_assoc, Nat.xor_comm, xor_left_comm, Nat.xor_self,
      Nat.xor_cancel_left, Nat.xor_cancel_right, Nat.xor_zero, Nat.zero_xor]

end Seer

namespace Seer

theorem testBit_intoBitboard (s : Square) (i : Nat) :
    (intoBitboard s).testBit i = decide (s.val = i) := by
  rw [intoBitboard_two_pow, Nat.testBit_two_pow]

theorem occupancy_play (b : ChessBoard) (m : Move) (b2 : ChessBoard)
    (st : NonReversibleState) (mp : Piece)
    (H1 : ∀ p q : Piece, p ≠ q → b.pieceOccupancy p &&& b.pieceOccupancy q = 0)
    (H2 : b.colorOccupancy Color.White &&& b.colorOccupancy Color.Black = 0)
    (H8 : b.colorOccupancy Color.White ||| b.colorOccupancy Color.Black
      = b.pieceOccupancy Piece.King ||| b.pieceOccupancy Piece.Queen
        ||| b.pieceOccupancy Piece.Rook ||| b.pieceOccupancy Piece.Bishop
        ||| b.pieceOccupancy Piece.Knight ||| b.pieceOccupancy Piece.Pawn)
    (H4 : b.colorOccupancy b.side &&& intoBitboard m.start ≠ 0)
    (H5 : b.colorOccupancy b.side &&& intoBitboard m.destination = 0)
    (H6 : b.pieceOccupancy Piece.King &&& intoBitboard m.destination = 0)
    (hfind : List.find? (fun p => !isEmpty (b.pieceOccupancy p &&& intoBitboard m.start))
      PIECES = some mp)
    (h : playMoveInplace b m = some (b2, st)) :
    ∀ p c, occupancy b2 p c
      = occupancy b p c
        ^^^ playToggles b.side m mp (m.promotion.getD mp) st.capturedPiece p c := by
  have hsd : m.start ≠ m.destination := by
    intro he
    rw [he] at H4
    exact H4 H5
  have hsdval : m.start.val ≠ m.destination.val :=
    fun he => hsd (Fin.val_inj.mp he)
  obtain ⟨Bpo, Bco, Bcomb, Bcr, Bep, Bhmc, Btp, Bside⟩ := b
  dsimp only at H1 H2 H8 H4 H5 H6 hfind ⊢
  have hmp_s : (Bpo mp).testBit m.start.val = true := by
    have h1 := List.find?_some hfind
    simp only [isEmpty, EMPTY, Bool.not_eq_true', beq_eq_false_iff_ne, ne_eq] at h1
    exact (land_intoBitboard_ne _ _).mp h1
  have hothers_s : ∀ q : Piece, q ≠ mp → (Bpo q).testBit m.start.val = false :=
    fun q hq => disjoint_testBit _ _ (H1 mp q (fun he => hq he.symm)) _ hmp_s
  have hside_s : (Bco Bside).testBit m.start.val = true := (land_intoBitboard_ne _ _).mp H4
  have hopp_s : (Bco (colorNot Bside)).testBit m.start.val = false := by
    cases Bside
    · exact disjoint_testBit _ _ H2 _ hside_s
    · exact disjoint_testBit _ _ (by rw [Nat.land_comm]; exact H2) _ hside_s
  have hside_d : (Bco Bside).testBit m.destination.val = false :=
    (land_intoBitboard_eq_zero _ _).mp H5
  simp only [playMoveInplace] at h
  split at h
  · exact absurd h (by simp)
  · rename_i mp2 hfind2
    have hmp2 : mp = mp2 := by
      rw [hfind] at hfind2
      exact (Option.some.injEq _ _).mp hfind2
    subst hmp2
    rw [Option.some.injEq, Prod.mk.injEq] at h
    obtain ⟨hb2, hst⟩ := h
    subst hb2
    subst hst
    intro p c
    dsimp only [occupancy]
    rcases hpromo : m.promotion with _ | promoPiece
    all_goals rcases hcap : (List.find?
        (fun p => !isEmpty (Bpo p &&& Bco (colorNot Bside) &&& intoBitboard m.destination))
        (List.drop 1 PIECES)) with _ | cp
    all_goals simp only [Option.isSome, Bool.false_or, Bool.true_or, Option.getD,
      apply_ite ChessBoard.pieceOccupancy, apply_ite ChessBoard.colorOccupancy,
      ite_self, updateCastling_pieceOccupancy, updateCastling_colorOccupancy,
      boardXor_pieceOccupancy, boardXor_colorOccupancy, playToggles]
    case none.none =>
      have hnocc : ∀ q : Piece, (Bpo q).testBit m.destination.val = false := by
        intro q
        by_cases hqk : q = Piece.King
        · subst hqk
          exact (land_intoBitboard_eq_zero _ _).mp H6
        · have hqmem : q ∈ List.drop 1 PIECES := by
            cases q
            · exact absurd rfl hqk
            all_goals decide
          have hq := List.find?_eq_none.mp hcap q hqmem
          simp only [isEmpty, EMPTY, Bool.not_eq_true', beq_eq_false_iff_ne, ne_eq,
            not_not] at hq
          cases hxq : (Bpo q).testBit m.destination.val
          · rfl
          · exfalso
            have hu : (Bco Color.White ||| Bco Color.Black).testBit
                m.destination.val = true := by
              rw [H8]
              simp only [Nat.testBit_lor]
              cases q <;> rw [hxq] <;> simp
            have hopp2 : (Bco (colorNot Bside)).testBit m.destination.val = true := by
              rw [Nat.testBit_lor] at hu
              cases Bside
              · simpa [colorNot, hside_d] using hu
              · simpa [colorNot, hside_d] using hu
            have hx : Bpo q &&& Bco (colorNot Bside) &&& intoBitboard m.destination ≠ 0 := by
              rw [Ne, land_intoBitboard_eq_zero, Nat.testBit_land, hxq, hopp2]
              simp
            exact hx hq
      have hoppd : (Bco (colorNot Bside)).testBit m.destination.val = false := by
        have hu : (Bco Color.White ||| Bco Color.Black).testBit m.destination.val
            = false := by
          rw [H8]
          simp only [Nat.testBit_lor, hnocc]
          rfl
        rw [Nat.testBit_lor] at hu
        cases Bside <;> simp only [colorNot] <;> cases h1 : (Bco Color.White).testBit
          m.destination.val <;> cases h2 : (Bco Color.Black).testBit m.destination.val <;>
          simp_all
      apply Nat.eq_of_testBit_eq
      intro i
      simp only [Nat.testBit_land, Nat.testBit_xor,
        apply_ite (fun x : Nat => x.testBit i), testBit_intoBitboard, Nat.zero_testBit]
      rcases eq_or_ne m.start.val i with hs | hs <;>
        rcases eq_or_ne m.destination.val i with hd | hd
      · exact absurd (hs.trans hd.symm) hsdval
      · subst hs
        have hdd : decide (m.destination.val = m.start.val) = false :=
          decide_eq_false (fun he => hsdval he.symm)
        have hss : decide (m.start.val = m.start.val) = true := by simp
        simp only [hss, hdd, Bool.xor_false]
        by_cases hpmp : p = mp
        · subst hpmp
          cases c <;> cases Bside <;> simp only [colorNot] at hopp_s <;>
            simp [colorNot, hmp_s, hside_s, hopp_s]
        · cases c <;> cases Bside <;> simp only [colorNot] at hopp_s <;>
            simp [colorNot, hpmp, hothers_s p hpmp, hside_s, hopp_s]
      · subst hd
        have hss : decide (m.start.val = m.destination.val) = false :=
          decide_eq_false hsdval
        have hdd : decide (m.destination.val = m.destination.val) = true := by simp
        simp only [hss, hdd, Bool.xor_false]
        by_cases hpmp : p = mp
        · subst hpmp
          cases c <;> cases Bside <;> simp only [colorNot] at hoppd <;>
            simp [colorNot, hnocc, hside_d, hoppd]
        · cases c <;> cases Bside <;> simp only [colorNot] at hoppd <;>
            simp [colorNot, hpmp, hnocc, hside_d, hoppd]
      · have h1 : decide (m.start.val = i) = false := decide_eq_false hs
        have h2 : decide (m.destination.val = i) = false := decide_eq_false hd
        simp only [h1, h2, Bool.xor_false, ite_self]
    case none.some =>
      have hp := List.find?_some hcap
      simp only [isEmpty, EMPTY, Bool.not_eq_true', beq_eq_false_iff_ne, ne_eq] at hp
      have hcp_d : (Bpo cp).testBit m.destination.val = true := by
        have hb := (land_intoBitboard_ne _ _).mp hp
        rw [Nat.testBit_land, Bool.and_eq_true] at hb
        exact hb.1
      have hoppd2 : (Bco (colorNot Bside)).testBit m.destination.val = true := by
        have hb := (land_intoBitboard_ne _ _).mp hp
        rw [Nat.testBit_land, Bool.and_eq_true] at hb
        exact hb.2
      have hothers_d : ∀ q : Piece, q ≠ cp → (Bpo q).testBit m.destination.val = false :=
        fun q hq => disjoint_testBit _ _ (H1 cp q (fun he => hq he.symm)) _ hcp_d
      apply Nat.eq_of_testBit_eq
      intro i
      simp only [Nat.testBit_land, Nat.testBit_xor,
        apply_ite (fun x : Nat => x.testBit i), testBit_intoBitboard, Nat.zero_testBit]
      rcases eq_or_ne m.start.val i with hs | hs <;>
        rcases eq_or_ne m.destination.val i with hd | hd
      · exact absurd (hs.trans hd.symm) hsdval
      · subst hs
        have hdd : decide (m.destination.val = m.start.val) = false :=
          decide_eq_false (fun he => hsdval he.symm)
        have hss : decide (m.start.val = m.start.val) = true := by simp
        simp only [hss, hdd, Bool.xor_false]
        by_cases hpmp : p = mp
        · subst hpmp
          cases c <;> cases Bside <;> simp only [colorNot] at hopp_s <;>
            simp [colorNot, hmp_s, hside_s, hopp_s]
        · cases c <;> cases Bside <;> simp only [colorNot] at hopp_s <;>
            simp [colorNot, hpmp, hothers_s p hpmp, hside_s, hopp_s]
      · subst hd
        have hss : decide (m.start.val = m.destination.val) = false :=
          decide_eq_false hsdval
        have hdd : decide (m.destination.val = m.destination.val) = true := by simp
        simp only [hss, hdd, Bool.xor_false]
        by_cases hpcp : p = cp
        · subst hpcp
          by_cases hpmp : p = mp
          · subst hpmp
            cases c <;> cases Bside <;> simp only [colorNot] at hoppd2 <;>
              simp [colorNot, hcp_d, hside_d, hoppd2]
          · cases c <;> cases Bside <;> simp only [colorNot] at hoppd2 <;>
              simp [colorNot, hpmp, hcp_d, hside_d, hoppd2]
        · by_cases hpmp : p = mp
          · subst hpmp
            cases c <;> cases Bside <;> simp only [colorNot] at hoppd2 <;>
              simp [colorNot, hpcp, hothers_d p hpcp, hside_d, hoppd2]
          · cases c <;> cases Bside <;> simp only [colorNot] at hoppd2 <;>
              simp [colorNot, hpmp, hpcp, hothers_d p hpcp, hside_d, hoppd2]
      · have h1 : decide (m.start.val = i) = false := decide_eq_false hs
        have h2 : decide (m.destination.val = i) = false := decide_eq_false hd
        simp only [h1, h2, Bool.xor_false, ite_self]
    case some.none =>
      have hnocc : ∀ q : Piece, (Bpo q).testBit m.destination.val = false := by
        intro q
        by_cases hqk : q = Piece.King
        · subst hqk
          exact (land_intoBitboard_eq_zero _ _).mp H6
        · have hqmem : q ∈ List.drop 1 PIECES := by
            cases q
            · exact absurd rfl hqk
            all_goals decide
          have hq := List.find?_eq_none.mp hcap q hqmem
          simp only [isEmpty, EMPTY, Bool.not_eq_true', beq_eq_false_iff_ne, ne_eq,
            not_not] at hq
          cases hxq : (Bpo q).testBit m.destination.val
          · rfl
          · exfalso
            have hu : (Bco Color.White ||| Bco Color.Black).testBit
                m.destination.val = true := by
              rw [H8]
              simp only [Nat.testBit_lor]
              cases q <;> rw [hxq] <;> simp
            have hopp2 : (Bco (colorNot Bside)).testBit m.destination.val = true := by
              rw [Nat.testBit_lor] at hu
              cases Bside
              · simpa [colorNot, hside_d] using hu
              · simpa [colorNot, hside_d] using hu
            have hx : Bpo q &&& Bco (colorNot Bside) &&& intoBitboard m.destination ≠ 0 := by
              rw [Ne, land_intoBitboard_eq_zero, Nat.testBit_land, hxq, hopp2]
              simp
            exact hx hq
      have hoppd : (Bco (colorNot Bside)).testBit m.destination.val = false := by
        have hu : (Bco Color.White ||| Bco Color.Black).testBit m.destination.val
            = false := by
          rw [H8]
          simp only [Nat.testBit_lor, hnocc]
          rfl
        rw [Nat.testBit_lor] at hu
        cases Bside <;> simp only [colorNot] <;> cases h1 : (Bco Color.White).testBit
          m.destination.val <;> cases h2 : (Bco Color.Black).testBit m.destination.val <;>
          simp_all
      apply Nat.eq_of_testBit_eq
      intro i
      simp only [Nat.testBit_land, Nat.testBit_xor,
        apply_ite (fun x : Nat => x.testBit i), testBit_intoBitboard, Nat.zero_testBit]
      rcases eq_or_ne m.start.val i with hs | hs <;>
        rcases eq_or_ne m.destination.val i with hd | hd
      · exact absurd (hs.trans hd.symm) hsdval
      · subst hs
        have hdd : decide (m.destination.val = m.start.val) = false :=
          decide_eq_false (fun he => hsdval he.symm)
        have hss : decide (m.start.val = m.start.val) = true := by simp
        simp only [hss, hdd, Bool.xor_false]
        by_cases hpmp : p = mp
        · subst hpmp
          by_cases hpdp : p = promoPiece
          · subst hpdp
            cases c <;> cases Bside <;> simp only [colorNot] at hopp_s <;>
              simp [colorNot, hmp_s, hside_s, hopp_s]
          · cases c <;> cases Bside <;> simp only [colorNot] at hopp_s <;>
              simp [colorNot, hpdp, hmp_s, hside_s, hopp_s]
        · by_cases hpdp : p = promoPiece
          · subst hpdp
            cases c <;> cases Bside <;> simp only [colorNot] at hopp_s <;>
              simp [colorNot, hpmp, hothers_s p hpmp, hside_s, hopp_s]
          · cases c <;> cases Bside <;> simp only [colorNot] at hopp_s <;>
              simp [colorNot, hpmp, hpdp, hothers_s p hpmp, hside_s, hopp_s]
      · subst hd
        have hss : decide (m.start.val = m.destination.val) = false :=
          decide_eq_false hsdval
        have hdd : decide (m.destination.val = m.destination.val) = true := by simp
        simp only [hss, hdd, Bool.xor_false]
        by_cases hpmp : p = mp
        · subst hpmp
          by_cases hpdp : p = promoPiece
          · subst hpdp
            cases c <;> cases Bside <;> simp only [colorNot] at hoppd <;>
              simp [colorNot, hnocc, hside_d, hoppd]
          · cases c <;> cases Bside <;> simp only [colorNot] at hoppd <;>
              simp [colorNot, hpdp, hnocc, hside_d, hoppd]
        · by_cases hpdp : p = promoPiece
          · subst hpdp
            cases c <;> cases Bside <;> simp only [colorNot] at hoppd <;>
              simp [colorNot, hpmp, hnocc, hside_d, hoppd]
          · cases c <;> cases Bside <;> simp only [colorNot] at hoppd <;>
              simp [colorNot, hpmp, hpdp, hnocc, hside_d, hoppd]
      · have h1 : decide (m.start.val = i) = false := decide_eq_false hs
        have h2 : decide (m.destination.val = i) = false := decide_eq_false hd
        simp only [h1, h2, Bool.xor_false, ite_self]
    case some.some =>
      have hp := List.find?_some hcap
      simp only [isEmpty, EMPTY, Bool.not_eq_true', beq_eq_false_iff_ne, ne_eq] at hp
      have hcp_d : (Bpo cp).testBit m.destination.val = true := by
        have hb := (land_intoBitboard_ne _ _).mp hp
        rw [Nat.testBit_land, Bool.and_eq_true] at hb
        exact hb.1
      have hoppd2 : (Bco (colorNot Bside)).testBit m.destination.val = true := by
        have hb := (land_intoBitboard_ne _ _).mp hp
        rw [Nat.testBit_land, Bool.and_eq_true] at hb
        exact hb.2
      have hothers_d : ∀ q : Piece, q ≠ cp → (Bpo q).testBit m.destination.val = false :=
        fun q hq => disjoint_testBit _ _ (H1 cp q (fun he => hq he.symm)) _ hcp_d
      apply Nat.eq_of_testBit_eq
      intro i
      simp only [Nat.testBit_land, Nat.testBit_xor,
        apply_ite (fun x : Nat => x.testBit i), testBit_intoBitboard, Nat.zero_testBit]
      rcases eq_or_ne m.start.val i with hs | hs <;>
        rcases eq_or_ne m.destination.val i with hd | hd
      · exact absurd (hs.trans hd.symm) hsdval
      · subst hs
        have hdd : decide (m.destination.val = m.start.val) = false :=
          decide_eq_false (fun he => hsdval he.symm)
        have hss : decide (m.start.val = m.start.val) = true := by simp
        simp only [hss, hdd, Bool.xor_false]
        by_cases hpmp : p = mp
        · subst hpmp
          by_cases hpdp : p = promoPiece
          · subst hpdp
            cases c <;> cases Bside <;> simp only [colorNot] at hopp_s <;>
              simp [colorNot, hmp_s, hside_s, hopp_s]
          · cases c <;> cases Bside <;> simp only [colorNot] at hopp_s <;>
              simp [colorNot, hpdp, hmp_s, hside_s, hopp_s]
        · by_cases hpdp : p = promoPiece
          · subst hpdp
            cases c <;> cases Bside <;> simp only [colorNot] at hopp_s <;>
              simp [colorNot, hpmp, hothers_s p hpmp, hside_s, hopp_s]
          · cases c <;> cases Bside <;> simp only [colorNot] at hopp_s <;>
              simp [colorNot, hpmp, hpdp, hothers_s p hpmp, hside_s, hopp_s]
      · subst hd
        have hss : decide (m.start.val = m.destination.val) = false :=
          decide_eq_false hsdval
        have hdd : decide (m.destination.val = m.destination.val) = true := by simp
        simp only [hss, hdd, Bool.xor_false]
        by_cases hpcp : p = cp
        · subst hpcp
          by_cases hpmp : p = mp
          · subst hpmp
            by_cases hpdp : p = promoPiece
            · subst hpdp
              cases c <;> cases Bside <;> simp only [colorNot] at hoppd2 <;>
                simp [colorNot, hcp_d, hside_d, hoppd2]
            · cases c <;> cases Bside <;> simp only [colorNot] at hoppd2 <;>
                simp [colorNot, hpdp, hcp_d, hside_d, hoppd2]
          · by_cases hpdp : p = promoPiece
            · subst hpdp
              cases c <;> cases Bside <;> simp only [colorNot] at hoppd2 <;>
                simp [colorNot, hpmp, hcp_d, hside_d, hoppd2]
            · cases c <;> cases Bside <;> simp only [colorNot] at hoppd2 <;>
                simp [colorNot, hpmp, hpdp, hcp_d, hside_d, hoppd2]
        · by_cases hpmp : p = mp
          · subst hpmp
            by_cases hpdp : p = promoPiece
            · subst hpdp
              cases c <;> cases Bside <;> simp only [colorNot] at hoppd2 <;>
                simp [colorNot, hpcp, hothers_d p hpcp, hside_d, hoppd2]
            · cases c <;> cases Bside <;> simp only [colorNot] at hoppd2 <;>
                simp [colorNot, hpcp, hpdp, hothers_d p hpcp, hside_d, hoppd2]
          · by_cases hpdp : p = promoPiece
            · subst hpdp
              cases c <;> cases Bside <;> simp only [colorNot] at hoppd2 <;>
                simp [colorNot, hpmp, hpcp, hothers_d p hpcp, hside_d, hoppd2]
            · cases c <;> cases Bside <;> simp only [colorNot] at hoppd2 <;>
                simp [colorNot, hpmp, hpcp, hpdp, hothers_d p hpcp, hside_d, hoppd2]
      · have h1 : decide (m.start.val = i) = false := decide_eq_false hs
        have h2 : decide (m.destination.val = i) = false := decide_eq_false hd
        simp only [h1, h2, Bool.xor_false, ite_self]

end Seer

namespace Seer

theorem playMoveInplace_side (b : ChessBoard) (m : Move) (b2 : ChessBoard)
    (st : NonReversibleState) (h : playMoveInplace b m = some (b2, st)) :
    b2.side = colorNot b.side := by
  simp only [playMoveInplace] at h
  split at h
  · exact absurd h (by simp)
  · rw [Option.some.injEq, Prod.mk.injEq] at h
    obtain ⟨hb2, _⟩ := h
    subst hb2
    rfl

/-- C4: Modelled from the spec: for any key tables and any position
satisfying the section-3 coherence invariants (disjoint piece boards,
disjoint color boards, color union equal to the piece union), the Zobrist
hash of the position a `play_move_inplace`-accepted move produces, computed
from scratch, equals the previous from-scratch hash XORed with the
incremental delta prescribed by the spec's update rule — but only under the
pseudo-legality side conditions H4/H5/H6 (the side to move occupies the
start square, does not occupy the destination, and no king stands on the
destination), which the code itself never checks.  These conditions are
load-bearing: play accepts moves violating them and the identity then fails
(see the counterexample). -/
theorem c4_zobrist_incremental (K : ZobristKeys) (b : ChessBoard) (m : Move)
    (b2 : ChessBoard) (st : NonReversibleState) (mp : Piece)
    (H1 : ∀ p q : Piece, p ≠ q → b.pieceOccupancy p &&& b.pieceOccupancy q = 0)
    (H2 : b.colorOccupancy Color.White &&& b.colorOccupancy Color.Black = 0)
    (H8 : b.colorOccupancy Color.White ||| b.colorOccupancy Color.Black
      = b.pieceOccupancy Piece.King ||| b.pieceOccupancy Piece.Queen
        ||| b.pieceOccupancy Piece.Rook ||| b.pieceOccupancy Piece.Bishop
        ||| b.pieceOccupancy Piece.Knight ||| b.pieceOccupancy Piece.Pawn)
    (H4 : b.colorOccupancy b.side &&& intoBitboard m.start ≠ 0)
    (H5 : b.colorOccupancy b.side &&& intoBitboard m.destination = 0)
    (H6 : b.pieceOccupancy Piece.King &&& intoBitboard m.destination = 0)
    (hfind : List.find? (fun p => !isEmpty (b.pieceOccupancy p &&& intoBitboard m.start))
      PIECES = some mp)
    (h : playMoveInplace b m = some (b2, st)) :
    hashFromScratch K b2
      = hashFromScratch K b ^^^ playZobristDelta K b b2 m mp st.capturedPiece :=
  hashFromScratch_play K b b2 m mp st.capturedPiece
    (occupancy_play b m b2 st mp H1 H2 H8 H4 H5 H6 hfind h)
    (playMoveInplace_side b m b2 st h)

theorem c4_witness :
    Option.elim
      (playMoveInplace defaultChessBoard ⟨⟨33, by decide⟩, ⟨35, by decide⟩, none⟩)
      False
      (fun pr =>
        hashFromScratch ⟨1, fun _ _ s => s.val, fun _ _ => 2, fun f => f.val⟩ pr.1
          = hashFromScratch ⟨1, fun _ _ s => s.val, fun _ _ => 2, fun f => f.val⟩
              defaultChessBoard
            ^^^ playZobristDelta ⟨1, fun _ _ s => s.val, fun _ _ => 2, fun f => f.val⟩
              defaultChessBoard pr.1 ⟨⟨33, by decide⟩, ⟨35, by decide⟩, none⟩
              Piece.Pawn pr.2.capturedPiece) := by
  rcases hpl : playMoveInplace defaultChessBoard ⟨⟨33, by decide⟩, ⟨35, by decide⟩, none⟩
    with _ | ⟨b2, st⟩
  · exact absurd hpl (by decide)
  · exact c4_zobrist_incremental ⟨1, fun _ _ s => s.val, fun _ _ => 2, fun f => f.val⟩
      defaultChessBoard ⟨⟨33, by decide⟩, ⟨35, by decide⟩, none⟩ b2 st Piece.Pawn
      (by decide) (by decide) (by decide) (by decide) (by decide) (by decide)
      (by decide) hpl

/-- C4 counterexample: the unqualified incremental rule is false for moves
`play_move_inplace` accepts.  From the starting position with White to move,
play accepts A8→A6 — moving the black rook, since the code never checks that
the mover belongs to the side to move — and for a color-sensitive key table
the from-scratch hash of the result differs from the previous hash XOR the
incremental delta: the delta keys the rook as White on A8 while the position
actually lost the Black rook key of A8. -/
theorem c4_counterexample :
    (playMoveInplace defaultChessBoard ⟨⟨7, by decide⟩, ⟨5, by decide⟩, none⟩) ≠ none
    ∧ hashFromScratch
        ⟨1, fun c _ s => 2 ^ (colorIndex c * 64 + s.val), fun _ _ => 2, fun f => f.val⟩
        ((playMoveInplace defaultChessBoard ⟨⟨7, by decide⟩, ⟨5, by decide⟩, none⟩).getD
          (defaultChessBoard, ⟨defaultChessBoard.castleRights, none, 0, none⟩)).1
      ≠ hashFromScratch
          ⟨1, fun c _ s => 2 ^ (colorIndex c * 64 + s.val), fun _ _ => 2, fun f => f.val⟩
          defaultChessBoard
        ^^^ playZobristDelta
            ⟨1, fun c _ s => 2 ^ (colorIndex c * 64 + s.val), fun _ _ => 2, fun f => f.val⟩
            defaultChessBoard
            ((playMoveInplace defaultChessBoard ⟨⟨7, by decide⟩, ⟨5, by decide⟩, none⟩).getD
              (defaultChessBoard, ⟨defaultChessBoard.castleRights, none, 0, none⟩)).1
            ⟨⟨7, by decide⟩, ⟨5, by decide⟩, none⟩ Piece.Rook
            ((playMoveInplace defaultChessBoard ⟨⟨7, by decide⟩, ⟨5, by decide⟩, none⟩).getD
              (defaultChessBoard, ⟨defaultChessBoard.castleRights, none, 0, none⟩)).2.capturedPiece := by
  constructor
  · decide
  · decide

end Seer

namespace Seer

theorem colorCountChecks_range (b : ChessBoard) (c : Color) (e : ValidationError)
    (he : colorCountChecks b c = some e) :
    e = ValidationError.TooManyPieces ∨ e = ValidationError.MissingKing := by
  unfold colorCountChecks at he
  split at he
  · exact Or.inl (Option.some.injEq _ _ ▸ he.symm ▸ rfl)
  · split at he
    · exact Or.inr ((Option.some.injEq _ _).mp he).symm
    · split at he
      · exact Or.inl ((Option.some.injEq _ _).mp he).symm
      · exact Option.noConfusion he

theorem castleChecks_range (b : ChessBoard) (c : Color) (e : ValidationError)
    (he : castleChecks b c = some e) : e = ValidationError.InvalidCastlingRights := by
  unfold castleChecks at he
  split at he
  · exact Option.noConfusion he
  · split at he
    · exact ((Option.some.injEq _ _).mp he).symm
    · split at he
      · exact ((Option.some.injEq _ _).mp he).symm
      · exact Option.noConfusion he

theorem enPassantChecks_range (b : ChessBoard) (e : ValidationError)
    (he : enPassantChecks b = some e) : e = ValidationError.InvalidEnPassant := by
  unfold enPassantChecks at he
  split at he
  · exact Option.noConfusion he
  · split at he
    · exact ((Option.some.injEq _ _).mp he).symm
    · split at he
      · exact ((Option.some.injEq _ _).mp he).symm
      · split at he
        · exact ((Option.some.injEq _ _).mp he).symm
        · exact Option.noConfusion he

/-- C3: the actual check order of `validate()` puts the ply-count parity and
half-move-clock checks FIRST, not last as the spec's section-3 listing
claims: `validate` returns `IncoherentPlieCount` exactly when the parity
invariant fails (regardless of any other violation), returns
`HalfMoveClockTooHigh` exactly when parity holds but the clock exceeds the
ply count, and only then — parity and clock both fine — reports overlapping
piece boards as `OverlappingPieces`. -/
theorem c3_validate_checks_plies_first (b : ChessBoard) :
    (validate b = Except.error ValidationError.IncoherentPlieCount
      ↔ b.totalPlies % 2 ≠ colorIndex b.side)
    ∧ (validate b = Except.error ValidationError.HalfMoveClockTooHigh
      ↔ b.totalPlies % 2 = colorIndex b.side ∧ b.halfMoveClock > b.totalPlies)
    ∧ (validate b = Except.error ValidationError.OverlappingPieces
      ↔ b.totalPlies % 2 = colorIndex b.side ∧ ¬ b.halfMoveClock > b.totalPlies
        ∧ PIECES.any (fun piece => PIECES.any (fun other =>
            decide (piece ≠ other)
              && !isEmpty (b.pieceOccupancy piece &&& b.pieceOccupancy other))) = true) := by
  by_cases h1 : b.totalPlies % 2 = colorIndex b.side
  · by_cases h2 : b.halfMoveClock > b.totalPlies
    · have hv : validate b = Except.error ValidationError.HalfMoveClockTooHigh := by
        unfold validate
        rw [if_neg (not_not_intro h1), if_pos h2]
      rw [hv]
      exact ⟨iff_of_false (by simp) (fun hne => hne h1),
        iff_of_true rfl ⟨h1, h2⟩,
        iff_of_false (by simp) (fun hc => hc.2.1 h2)⟩
    · by_cases h3 : PIECES.any (fun piece => PIECES.any (fun other =>
          decide (piece ≠ other)
            && !isEmpty (b.pieceOccupancy piece &&& b.pieceOccupancy other))) = true
      · have hv : validate b = Except.error ValidationError.OverlappingPieces := by
          unfold validate
          rw [if_neg (not_not_intro h1), if_neg h2, if_pos h3]
        rw [hv]
        exact ⟨iff_of_false (by simp) (fun hne => hne h1),
          iff_of_false (by simp) (fun hc => h2 hc.2),
          iff_of_true rfl ⟨h1, h2, h3⟩⟩
      · have hv : ∀ e : ValidationError, validate b = Except.error e →
            e ≠ ValidationError.IncoherentPlieCount
            ∧ e ≠ ValidationError.HalfMoveClockTooHigh
            ∧ e ≠ ValidationError.OverlappingPieces := by
          intro e hv
          unfold validate at hv
          rw [if_neg (not_not_intro h1), if_neg h2, if_neg h3] at hv
          repeat' split at hv
          all_goals try exact Except.noConfusion hv
          all_goals rw [Except.error.injEq] at hv
          all_goals rcases hv with rfl
          all_goals try decide
          all_goals rename_i heq
          all_goals
            first
            | (rcases colorCountChecks_range _ _ _ heq with rfl | rfl <;> decide)
            | (rw [castleChecks_range _ _ _ heq]; decide)
            | (rw [enPassantChecks_range _ _ heq]; decide)
        refine ⟨⟨fun he => absurd rfl (hv _ he).1, fun he => absurd h1 he⟩,
          ⟨fun he => absurd rfl (hv _ he).2.1, fun he => absurd he.2 h2⟩,
          ⟨fun he => absurd rfl (hv _ he).2.2, fun he => absurd he.2.2 h3⟩⟩
  · have hv : validate b = Except.error ValidationError.IncoherentPlieCount := by
      unfold validate
      rw [if_pos h1]
    rw [hv]
    exact ⟨iff_of_true rfl h1,
      iff_of_false (by simp) (fun hc => h1 hc.1),
      iff_of_false (by simp) (fun hc => h1 hc.1)⟩

/-- C3 counterexample: `c3BadBoard` violates both the piece-overlap
invariant (the white queen shares square E1 with the king) and the
ply-count parity invariant (`total_plies = 1` with White to move), yet
`validate` rejects it as `IncoherentPlieCount` — the parity check runs
first, not last as the spec's ordering claims, so the position is not
rejected as `OverlappingPieces`. -/
theorem c3_counterexample :
    (PIECES.any (fun piece => PIECES.any (fun other =>
        decide (piece ≠ other)
          && !isEmpty (c3BadBoard.pieceOccupancy piece
                &&& c3BadBoard.pieceOccupancy other))) = true)
    ∧ c3BadBoard.totalPlies % 2 ≠ colorIndex c3BadBoard.side
    ∧ validate c3BadBoard = Except.error ValidationError.IncoherentPlieCount
    ∧ ValidationError.IncoherentPlieCount ≠ ValidationError.OverlappingPieces := by
  decide

end Seer
